import Mathlib

/-!
Verification of the jira-log-split fetch/cache/throttle engine.

Shallow embedding of the parts of the repository relevant to the verified
claims:

* `src/services/IssueProviderService.ts` — incremental day-range cache
  (`mergeRanges`, `subtractRanges`, `nextDayIso`/`prevDayIso`), the
  cache-aware fetch planning of `getIssuesByActivity` /
  `getIssuesByActivityStream` (delta computation, open-ended marker), and the
  streaming-progress/ETA bookkeeping.
* `src/services/JiraApiService.ts` — phase-2 batch sizing of
  `fetchIssuesDetailedByKeys`, the adaptive-queue processor
  `processQueueWithAdaptiveConcurrency`, and `isThrottleError`.
* `src/core/constants.ts` — the backoff ratio 0.75 appears as the exact
  rational 3/4 (the float literal 0.75 is exact in binary).

Calendar days: the source stores days as ISO `YYYY-MM-DD` strings, compares
them with lexicographic string comparison and steps them with
`nextDayIso`/`prevDayIso` (UTC day arithmetic).  On well-formed ISO days,
string order coincides with calendar order, and `nextDayIso`/`prevDayIso`
are successor/predecessor of the day number.  We therefore embed a calendar
day as its epoch day number (`Nat`), with `Nat.succ`/`Nat.pred` for
`nextDayIso`/`prevDayIso`; `toEpochDay` below computes that number from a
proleptic-Gregorian date, so concrete dates used by the claims (e.g. that
2023-05-31 and 2023-06-01 are adjacent days) are genuine calendar facts.
-/

namespace Jira

/-- Gregorian leap-year test (as in UTC calendar arithmetic). -/
def isLeapYear (y : Nat) : Bool :=
  (y % 4 == 0 && y % 100 != 0) || y % 400 == 0

/-- Days in month `m` (1..12) of year `y`. -/
def daysInMonth (y m : Nat) : Nat :=
  if m = 2 then (if isLeapYear y then 29 else 28)
  else if m = 4 ∨ m = 6 ∨ m = 9 ∨ m = 11 then 30
  else 31

/-- Days in year `y` strictly before month `m`. -/
def daysBeforeMonth (y m : Nat) : Nat :=
  (List.range (m - 1)).foldl (fun acc i => acc + daysInMonth y (i + 1)) 0

/-- Epoch day number of the Gregorian date `y-m-d` (day 0 = 0001-01-01). -/
def toEpochDay (y m d : Nat) : Nat :=
  (365 * (y - 1) + (y - 1) / 4 - (y - 1) / 100 + (y - 1) / 400)
    + daysBeforeMonth y m + (d - 1)

/-- A day range, both ends inclusive.  Embeds the source's
`{start: string; end: string}` (ISO days); the field `stop` embeds the
source field `end`, which is a reserved word in Lean. -/
structure DayRange where
  start : Nat
  stop : Nat
deriving DecidableEq, Repr

/-- Invariant of a well-formed day range: `start ≤ end`. -/
def wfRange (r : DayRange) : Prop := r.start ≤ r.stop

instance (r : DayRange) : Decidable (wfRange r) := by
  unfold wfRange; infer_instance

/-- Day `d` is covered by one of the ranges in `rs`. -/
def inRanges (rs : List DayRange) (d : Nat) : Prop :=
  ∃ r ∈ rs, r.start ≤ d ∧ d ≤ r.stop

instance (rs : List DayRange) (d : Nat) : Decidable (inRanges rs d) := by
  unfold inRanges; infer_instance

/-- Comparison used by the source's sort `(a, b) => a.start.localeCompare(b.start)`:
order ranges by their start day. -/
def startLE (a b : DayRange) : Prop := a.start ≤ b.start

instance : DecidableRel startLE := fun a b => by unfold startLE; infer_instance

instance : IsTotal DayRange startLE :=
  ⟨fun a b => Nat.le_total a.start b.start⟩

instance : IsTrans DayRange startLE :=
  ⟨fun _ _ _ hab hbc => Nat.le_trans hab hbc⟩

/-- One pass of `IssueProviderService.mergeRanges`' fold (lines 72–84):
`cur` is the block currently being grown (the mutable `last` of the merged
array); a next range `r` with `r.start <= nextDayIso(last.end)` is folded
into `cur` (extending its end when larger), otherwise `cur` is emitted and
`r` starts a new block. -/
def mergeLoop (cur : DayRange) : List DayRange → List DayRange
  | [] => [cur]
  | r :: rest =>
    if r.start ≤ cur.stop + 1 then
      mergeLoop ⟨cur.start, if cur.stop < r.stop then r.stop else cur.stop⟩ rest
    else
      cur :: mergeLoop r rest

/-- `IssueProviderService.mergeRanges` (lines 65–86): sort by start, then
fold overlapping/adjacent ranges (`end + 1 day == next start` counts as
adjacent) into single spans. -/
def mergeRanges (ranges : List DayRange) : List DayRange :=
  match List.insertionSort startLE ranges with
  | [] => []
  | r :: rest => mergeLoop r rest

/-- Loop body of `IssueProviderService.subtractRanges` (lines 96–110):
sweep a cursor over the merged covered list, emitting each gap; the missing
trailing gap `[cursor, universe.end]` is emitted when the list is exhausted
(or a covered range starts past the universe end) and the cursor has not
passed `universe.end`. -/
def subtractLoop (uStop : Nat) : Nat → List DayRange → List DayRange
  | cursor, [] =>
      if cursor ≤ uStop then [⟨cursor, uStop⟩] else []
  | cursor, r :: rest =>
      if r.stop < cursor then subtractLoop uStop cursor rest
      else if uStop < r.start then
        if cursor ≤ uStop then [⟨cursor, uStop⟩] else []
      else
        let gaps := if cursor < r.start then [⟨cursor, r.start - 1⟩] else []
        let cursor' := if cursor ≤ r.stop then r.stop + 1 else cursor
        if uStop < cursor' then gaps
        else gaps ++ subtractLoop uStop cursor' rest

/-- `IssueProviderService.subtractRanges` (lines 88–111): the parts of
`universe` not covered by `covered` (which is merged first, as in the
source). -/
def subtractRanges (uni : DayRange) (covered : List DayRange) :
    List DayRange :=
  subtractLoop uni.stop uni.start (mergeRanges covered)

/-- The `CoveredRangeSet` invariant: consecutive ranges are separated by at
least one uncovered day (`nextDay r.end < next.start`, i.e. no overlap and
no adjacency). -/
def ChainedGap (l : List DayRange) : Prop :=
  List.Chain' (fun a b => a.stop + 1 < b.start) l

/-! ### Cache-aware fetch planning of `getIssuesByActivity` (lines 222–310)
and `getIssuesByActivityStream` (lines 457–542)

Both methods compute `deltas = subtractRanges(universe, fetchedRanges)`,
loop over the deltas skipping any delta whose start is at/after the
open-ended marker, issue one JQL fetch per remaining delta
(`updated >= delta.start`, plus `updated < marker` when the marker is set),
merge each fetched delta into `fetchedRanges`, and finally lower the
open-ended marker to `min(marker, universe.start)`.  The stream variant
additionally returns early — without touching the marker — when every delta
was skipped (`performedFetch` stays false, lines 534–538). -/

/-- One JQL fetch issued by the delta loop: `updated >= start` and, when
`upper = some m`, `updated < m` (exclusive upper bound at the marker). -/
structure FetchCall where
  start : Nat
  upper : Option Nat
deriving DecidableEq, Repr

/-- Fetch-relevant mutable state of an `IssueProviderService` instance:
`fetchedRanges` and `openEndedStartISO` (lines 18, 22). -/
structure CacheState where
  fetchedRanges : List DayRange
  openEndedStart : Option Nat
deriving DecidableEq, Repr

/-- Skip test of the delta loop (lines 249–251 / 459–461):
`openEndedStartISO && delta.start >= openEndedStartISO`. -/
def shouldSkipDelta (marker : Option Nat) (delta : DayRange) : Bool :=
  match marker with
  | some m => decide (m ≤ delta.start)
  | none => false

/-- The delta loop (lines 247–299 / 457–532): returns the fetch calls
issued in order together with the final `fetchedRanges` (each non-skipped
delta is merged in as soon as its fetch completes). -/
def deltaLoop (marker : Option Nat) (fr : List DayRange) :
    List DayRange → List FetchCall × List DayRange
  | [] => ([], fr)
  | d :: ds =>
    if shouldSkipDelta marker d then deltaLoop marker fr ds
    else
      let res := deltaLoop marker (mergeRanges (fr ++ [d])) ds
      (⟨d.start, marker⟩ :: res.1, res.2)

/-- Marker update (lines 300–303 / 539–542): the open-ended marker becomes
the minimum of its previous value and the universe start. -/
def updateMarker (marker : Option Nat) (uStart : Nat) : Option Nat :=
  match marker with
  | none => some uStart
  | some m => if uStart < m then some uStart else some m

/-- Fetch planning of `getIssuesByActivity` (lines 222–310): the fetch
calls performed and the state afterwards.  When there are no deltas the
request is served from cache and the state is untouched (lines 233–236);
otherwise the marker is lowered even if every delta was skipped. -/
def getIssuesByActivityCalls (st : CacheState) (uni : DayRange) :
    List FetchCall × CacheState :=
  let deltas := subtractRanges uni st.fetchedRanges
  if deltas.isEmpty then ([], st)
  else
    let res := deltaLoop st.openEndedStart st.fetchedRanges deltas
    (res.1, ⟨res.2, updateMarker st.openEndedStart uni.start⟩)

/-- Fetch planning of `getIssuesByActivityStream` (lines 457–542): as
`getIssuesByActivityCalls`, except that when every delta is skipped the
method returns the cached result early (lines 534–538) and neither
`fetchedRanges` nor the marker changes. -/
def getIssuesByActivityStreamCalls (st : CacheState) (uni : DayRange) :
    List FetchCall × CacheState :=
  let deltas := subtractRanges uni st.fetchedRanges
  if deltas.isEmpty then ([], st)
  else
    let res := deltaLoop st.openEndedStart st.fetchedRanges deltas
    if res.1.isEmpty then ([], st)
    else (res.1, ⟨res.2, updateMarker st.openEndedStart uni.start⟩)

/-! ### Phase-2 batch sizing (`JiraApiService.fetchIssuesDetailedByKeys`,
lines 250–270) -/

/-- `Math.ceil(a / b)` on naturals (`b > 0` in all uses: the source divides
by `targetConcurrency = Math.max(1, …)`). -/
def ceilDiv (a b : Nat) : Nat := (a + b - 1) / b

/-- Lines 255–257: the target concurrency is the explicit option when
given, otherwise the adaptive starting concurrency, clamped to at least 1. -/
def targetConcurrencyOf (concurrencyOpt : Option Nat)
    (initialConcurrency : Nat) : Nat :=
  max 1 (concurrencyOpt.getD initialConcurrency)

/-- Lines 259–262: an explicit batch size is honoured only when positive. -/
def explicitBatchSizeOf (batchSizeOpt : Option Nat) : Option Nat :=
  match batchSizeOpt with
  | some b => if 0 < b then some b else none
  | none => none

/-- Lines 263–265: batch size = explicit option if given, else
`max(ceil(totalKeys / targetConcurrency), 1)`. -/
def detailedBatchSize (numKeys targetConcurrency : Nat)
    (batchSizeOpt : Option Nat) : Nat :=
  match explicitBatchSizeOf batchSizeOpt with
  | some b => b
  | none => max (ceilDiv numKeys targetConcurrency) 1

/-- Lines 267–269: split `keys` into consecutive chunks of `bs` keys.  The
source loop `for (let i = 0; i < keys.length; i += batchSize)` pushes
`keys.slice(i, i + batchSize)`; it runs `ceil(keys.length / bs)` times with
`i = j * bs` at iteration `j`. -/
def chunkKeys {α : Type} (bs : Nat) (keys : List α) : List (List α) :=
  (List.range (ceilDiv keys.length bs)).map
    (fun j => (keys.drop (j * bs)).take bs)

/-- The batches built by `fetchIssuesDetailedByKeys` (lines 259–269),
guarded by `batchSize > 0` as in the source. -/
def detailedBatches {α : Type} (keys : List α) (targetConcurrency : Nat)
    (batchSizeOpt : Option Nat) : List (List α) :=
  let bs := detailedBatchSize keys.length targetConcurrency batchSizeOpt
  if 0 < bs then chunkKeys bs keys else []

/-! ### Adaptive queue processor
(`JiraApiService.processQueueWithAdaptiveConcurrency`, lines 333–386)

A task factory either resolves with a value or rejects with an error
message; `isThrottleError` (lines 427–431) classifies the message.  A
task's behaviour may differ between retries, so the model gives each task
factory access to the wave number at which it runs: `tasks i w` is the
outcome of task `i` when run in wave `w`.  The source's `while` loop has no
termination bound (a task that throttles forever loops forever), so the
model runs on explicit fuel: `none` means the fuel ran out before the queue
drained. -/

/-- Character-list version of "`needle` occurs at the front of `hay`". -/
def leadsList : List Char → List Char → Bool
  | [], _ => true
  | _ :: _, [] => false
  | a :: as, b :: bs => a = b && leadsList as bs

/-- Character-list version of JS `String.prototype.includes`. -/
def hasSub (needle hay : List Char) : Bool :=
  match hay with
  | [] => needle.isEmpty
  | _ :: rest => leadsList needle hay || hasSub needle rest

/-- `JiraApiService.isThrottleError` (lines 427–431): the stringified error
contains "429" or "503". -/
def isThrottleError (msg : String) : Bool :=
  hasSub "429".toList msg.toList || hasSub "503".toList msg.toList

/-- Run state of one `process(tasks, startConcurrency)` invocation
(lines 338–341), plus two observation logs: `persisted` records each
`updateAdaptiveConcurrency` call made inside the loop (line 381) and
`succeeded` records each task index whose factory resolved successfully,
in completion order. -/
structure QueueState (α : Type) where
  results : List (Option α)
  pending : List Nat
  concurrency : Nat
  hadThrottle : Bool
  persisted : List Nat
  succeeded : List Nat
deriving Repr, DecidableEq

/-- Initial run state (lines 338–341): empty results slots, all indices
pending in submission order, concurrency clamped to at least 1. -/
def initQueue (α : Type) (n startConcurrency : Nat) : QueueState α :=
  ⟨List.replicate n none, List.range n, max 1 startConcurrency,
   false, [], []⟩

/-- The classification loop over a wave's outcomes (lines 361–372):
successes are collected (they are written into `results`), throttle
failures collect their indices for retry, and the first non-throttle
failure aborts the wave by rethrowing the original error. -/
def classify {α : Type} :
    List (Nat × Except String α) →
    Except String (List (Nat × α) × List Nat)
  | [] => .ok ([], [])
  | (i, .ok v) :: rest =>
      (classify rest).map (fun sf => ((i, v) :: sf.1, sf.2))
  | (i, .error e) :: rest =>
      if isThrottleError e then
        (classify rest).map (fun sf => (sf.1, i :: sf.2))
      else .error e

/-- Backoff applied on a throttled wave (lines 376–377):
`reduced = max(1, floor(concurrency * ADAPTIVE_THROTTLE_BACKOFF_RATIO))`
with ratio 0.75 (= 3/4 exactly, `constants.ts` line 13), and a guaranteed
decrement of at least 1 (clamped at 1) when the ratio yields no change. -/
def backoffNext (c : Nat) : Nat :=
  let reduced := max 1 (c * 3 / 4)
  if reduced = c then max 1 (c - 1) else reduced

/-- The indices of the wave run from state `st`
(line 344: `pending.splice(0, Math.min(concurrency, pending.length))`). -/
def batchOf {α : Type} (st : QueueState α) : List Nat :=
  st.pending.take (min st.concurrency st.pending.length)

/-- The pending indices left after the wave's batch is taken (line 344). -/
def restOf {α : Type} (st : QueueState α) : List Nat :=
  st.pending.drop (min st.concurrency st.pending.length)

/-- The wave's outcomes, index paired with the task result (lines 345–359). -/
def outcomesOf {α : Type} (tasks : Nat → Nat → Except String α)
    (wave : Nat) (st : QueueState α) : List (Nat × Except String α) :=
  (batchOf st).map (fun i => (i, tasks i wave))

/-- One iteration of the `while (pending.length > 0)` loop
(lines 343–383): take the first `min(concurrency, pending.length)` indices
as the wave, run them, assign successes by original index, and on throttle
reduce the concurrency, persist it (within the same wave), and re-insert
the throttled indices at the front of `pending`. -/
def waveStep {α : Type} (tasks : Nat → Nat → Except String α) (wave : Nat)
    (st : QueueState α) : Except String (QueueState α) :=
  match classify (outcomesOf tasks wave st) with
  | .error e => .error e
  | .ok sf =>
    if sf.2.isEmpty then
      .ok { st with
            results := sf.1.foldl (fun r iv => r.set iv.1 (some iv.2)) st.results,
            pending := restOf st,
            succeeded := st.succeeded ++ sf.1.map Prod.fst }
    else
      .ok { results := sf.1.foldl (fun r iv => r.set iv.1 (some iv.2)) st.results,
            pending := sf.2 ++ restOf st,
            concurrency := backoffNext st.concurrency,
            hadThrottle := true,
            persisted := st.persisted ++ [backoffNext st.concurrency],
            succeeded := st.succeeded ++ sf.1.map Prod.fst }

/-- The processor's `while` loop on explicit fuel; `wave` numbers the
iterations so task behaviour can vary between retries. -/
def runQueue {α : Type} (tasks : Nat → Nat → Except String α) :
    Nat → Nat → QueueState α → Option (Except String (QueueState α))
  | 0, _, st => if st.pending.isEmpty then some (.ok st) else none
  | fuel + 1, wave, st =>
    if st.pending.isEmpty then some (.ok st)
    else
      match waveStep tasks wave st with
      | .error e => some (.error e)
      | .ok st' => runQueue tasks fuel (wave + 1) st'

/-- `processQueueWithAdaptiveConcurrency` (lines 333–386) for `n` task
factories at a given start concurrency.  The source returns
`{results, finalConcurrency, hadThrottle}`; here the whole final state is
returned (those are its fields). -/
def processQueueWithAdaptiveConcurrency {α : Type}
    (tasks : Nat → Nat → Except String α) (n startConcurrency fuel : Nat) :
    Option (Except String (QueueState α)) :=
  runQueue tasks fuel 0 (initQueue α n startConcurrency)

/-- Result slot `i` of a results list (`results[idx]`), `none` = unfilled. -/
def slotL {α : Type} (l : List (Option α)) (i : Nat) : Option α :=
  l.getD i none

/-- Whether a task outcome is a success (line 364's `o.ok`). -/
def isOkB {α : Type} : Except String α → Bool
  | .ok _ => true
  | .error _ => false

/-- Whether a task outcome is a recoverable throttle failure
(line 366's `!o.ok && isThrottleError(o.err)`). -/
def isThrottleFailB {α : Type} : Except String α → Bool
  | .error e => isThrottleError e
  | .ok _ => false

/-- The throttled indices of the wave run from state `st` at wave number
`wave`, in batch order — the indices that lines 374–381 re-insert at the
front of `pending`. -/
def throttledOf {α : Type} (tasks : Nat → Nat → Except String α)
    (wave : Nat) (st : QueueState α) : List Nat :=
  (batchOf st).filter (fun i => isThrottleFailB (tasks i wave))

/-! ### Streaming progress / ETA
(`getIssuesByActivityStream`, lines 343–352, 402–452 and 493–576)

Progress bookkeeping is driven by two kinds of events:

* a delta's first page reveals its batch count
  (`idx === 0` branch, lines 493–515): `totalBatches += pages` and, when
  `pages > 0`, an initial-heuristic snapshot is emitted;
* a detail batch completes (`processBatch`, lines 402–452): `processedBatches`
  increments and, when `totalBatches > 0`, a snapshot is emitted.

Because every detail fetch is awaited inside the delta loop before
`phase1Done = true` is set (line 544), all `processBatch` events occur while
`phase1Done` is still `false`; the model keeps the flag and the measured
branch faithfully and the proofs only use that the flag starts out false.
After the loop the final snapshot of lines 553–576 is emitted.  JS numbers
are modelled as `ℚ`; the EMA coefficient `alpha = 0.3` (line 428) is the
rational 3/10. -/

/-- `ProgressSnapshot` (lines 316–321). -/
structure ProgressSnapshot where
  processedBatches : Nat
  totalBatches : Nat
  remainingBatches : Nat
  etaSeconds : Option ℚ
deriving DecidableEq, Repr

/-- Progress-relevant local state of one stream call (lines 346–352) plus
the list of snapshots emitted to `onProgress` so far. -/
structure ProgressState where
  totalBatches : Option Nat
  processedBatches : Nat
  phase1Done : Bool
  measuredStartAt : Option Nat
  processedAtMeasureStart : Nat
  avgSecondsPerBatch : Option ℚ
  prevEtaSeconds : Option ℚ
  snapshots : List ProgressSnapshot
deriving DecidableEq, Repr

/-- Initial progress state (lines 346–352). -/
def initProgress : ProgressState :=
  ⟨none, 0, false, none, 0, none, none, []⟩

/-- An observable progress event of one stream run; `batchDone` carries the
`Date.now()` reading of that `processBatch` call. -/
inductive StreamEvent where
  | discover (pages : Nat)
  | batchDone (now : Nat)
deriving DecidableEq, Repr

/-- First-page handling of a delta (lines 493–515): accumulate the delta's
page count into `totalBatches` and, when it contributes at least one page,
emit a heuristic snapshot `remaining * ETA_INITIAL_SECONDS_PER_BATCH`
(without updating `prevEtaSeconds`). -/
def discoverStep (etaInitial : ℚ) (pages : Nat) (ps : ProgressState) :
    ProgressState :=
  let tb := ps.totalBatches.getD 0 + pages
  let ps := { ps with totalBatches := some tb }
  if 0 < pages then
    let remaining := tb - ps.processedBatches
    { ps with snapshots := ps.snapshots ++
        [⟨ps.processedBatches, tb, remaining, some ((remaining : ℚ) * etaInitial)⟩] }
  else ps

/-- Progress part of `processBatch` (lines 402–452): increment
`processedBatches`; when `totalBatches > 0` compute the ETA — measured
average smoothed by EMA once `phase1Done`, otherwise the initial heuristic —
and emit a snapshot.  `Math.max(0, total - processed)` is `Nat` subtraction. -/
def processBatchStep (etaInitial : ℚ) (now : Nat) (ps : ProgressState) :
    ProgressState :=
  let processed := ps.processedBatches + 1
  match ps.totalBatches with
  | none => { ps with processedBatches := processed }
  | some tb =>
    if 0 < tb then
      let remaining := tb - processed
      if ps.phase1Done then
        let measuredStartAt := ps.measuredStartAt.getD now
        let processedAtStart :=
          if ps.measuredStartAt.isNone then processed
          else ps.processedAtMeasureStart
        let measuredProcessed := processed - processedAtStart
        let elapsedMs := now - measuredStartAt
        let avgPerBatchMs : ℚ :=
          if 0 < measuredProcessed then (elapsedMs : ℚ) / (measuredProcessed : ℚ)
          else 0
        let avg : Option ℚ :=
          if 0 < avgPerBatchMs then some (avgPerBatchMs / 1000) else none
        match avg with
        | some a =>
          let instantaneous := (remaining : ℚ) * a
          let eta :=
            match ps.prevEtaSeconds with
            | none => instantaneous
            | some prev => (3 / 10 : ℚ) * instantaneous + (7 / 10 : ℚ) * prev
          { ps with processedBatches := processed,
                    measuredStartAt := some measuredStartAt,
                    processedAtMeasureStart := processedAtStart,
                    avgSecondsPerBatch := some a,
                    prevEtaSeconds := some eta,
                    snapshots := ps.snapshots ++
                      [⟨processed, tb, remaining, some eta⟩] }
        | none =>
          { ps with processedBatches := processed,
                    measuredStartAt := some measuredStartAt,
                    processedAtMeasureStart := processedAtStart,
                    avgSecondsPerBatch := none,
                    snapshots := ps.snapshots ++
                      [⟨processed, tb, remaining, none⟩] }
      else
        let eta := (remaining : ℚ) * etaInitial
        { ps with processedBatches := processed,
                  prevEtaSeconds := some eta,
                  snapshots := ps.snapshots ++
                    [⟨processed, tb, remaining, some eta⟩] }
    else { ps with processedBatches := processed }

/-- Dispatch one progress event. -/
def streamStep (etaInitial : ℚ) (ps : ProgressState) :
    StreamEvent → ProgressState
  | .discover pages => discoverStep etaInitial pages ps
  | .batchDone now => processBatchStep etaInitial now ps

/-- The event fold over one stream run's delta loop. -/
def streamLoop (etaInitial : ℚ) (events : List StreamEvent) : ProgressState :=
  events.foldl (streamStep etaInitial) initProgress

/-- End of the delta loop (lines 543–576): mark phase 1 done, reset the
measurement window, and emit the final snapshot — `remaining` recomputed,
and ETA exactly 0 when nothing remains, else `remaining * avg` (null if no
average was measured). -/
def streamFinalize (nowEnd : Nat) (ps : ProgressState) : ProgressState :=
  let ps := { ps with phase1Done := true,
                      measuredStartAt := some nowEnd,
                      processedAtMeasureStart := ps.processedBatches }
  match ps.totalBatches with
  | none => ps
  | some tb =>
    if 0 < tb then
      let remaining := tb - ps.processedBatches
      let eta : Option ℚ :=
        if remaining = 0 then some 0
        else ps.avgSecondsPerBatch.map (fun a => (remaining : ℚ) * a)
      { ps with snapshots := ps.snapshots ++
          [⟨ps.processedBatches, tb, remaining, eta⟩] }
    else ps

/-- A whole stream run's progress bookkeeping: the delta-loop events
followed by the finalization of lines 543–576. -/
def streamProgressRun (etaInitial : ℚ) (events : List StreamEvent)
    (nowEnd : Nat) : ProgressState :=
  streamFinalize nowEnd (streamLoop etaInitial events)

/-- Total number of batches discovered across all deltas' first pages. -/
def sumPages : List StreamEvent → Nat
  | [] => 0
  | .discover p :: es => p + sumPages es
  | .batchDone _ :: es => sumPages es

/-- Number of completed detail batches in the run. -/
def countBatchDone : List StreamEvent → Nat
  | [] => 0
  | .discover _ :: es => countBatchDone es
  | .batchDone _ :: es => 1 + countBatchDone es

/-- Whether any delta's first page was seen (this is what turns
`totalBatches` from `null` into a number). -/
def hasDiscover : List StreamEvent → Bool
  | [] => false
  | .discover _ :: _ => true
  | .batchDone _ :: es => hasDiscover es

/-! ## Lemmas about `mergeRanges` -/

theorem inRanges_cons {r : DayRange} {rs : List DayRange} {d : Nat} :
    inRanges (r :: rs) d ↔ (r.start ≤ d ∧ d ≤ r.stop) ∨ inRanges rs d := by
  simp only [inRanges, List.mem_cons]
  constructor
  · rintro ⟨x, hx | hx, h1, h2⟩
    · subst hx; exact Or.inl ⟨h1, h2⟩
    · exact Or.inr ⟨x, hx, h1, h2⟩
  · rintro (⟨h1, h2⟩ | ⟨x, hx, h1, h2⟩)
    · exact ⟨r, Or.inl rfl, h1, h2⟩
    · exact ⟨x, Or.inr hx, h1, h2⟩

theorem inRanges_nil {d : Nat} : ¬ inRanges [] d := by
  rintro ⟨x, hx, -⟩; cases hx

theorem inRanges_perm {l l' : List DayRange} (h : l.Perm l') (d : Nat) :
    inRanges l d ↔ inRanges l' d := by
  unfold inRanges
  constructor <;> rintro ⟨r, hr, h1, h2⟩
  · exact ⟨r, h.mem_iff.mp hr, h1, h2⟩
  · exact ⟨r, h.mem_iff.mpr hr, h1, h2⟩

theorem mergeLoop_head?_start (cur : DayRange) (l : List DayRange) :
    ∀ b ∈ (mergeLoop cur l).head?, b.start = cur.start := by
  induction l generalizing cur with
  | nil => intro b hb; simp [mergeLoop] at hb; subst hb; rfl
  | cons r rest ih =>
    simp only [mergeLoop]
    split
    · exact fun b hb =>
        ih ⟨cur.start, if cur.stop < r.stop then r.stop else cur.stop⟩ b hb
    · intro b hb; simp at hb; subst hb; rfl

theorem mergeLoop_wf (cur : DayRange) (l : List DayRange)
    (hcur : wfRange cur) (hl : ∀ r ∈ l, wfRange r) :
    ∀ g ∈ mergeLoop cur l, wfRange g := by
  induction l generalizing cur with
  | nil => intro g hg; simp [mergeLoop] at hg; subst hg; exact hcur
  | cons r rest ih =>
    intro g hg
    simp only [mergeLoop] at hg
    split at hg
    · refine ih ⟨cur.start, if cur.stop < r.stop then r.stop else cur.stop⟩
        ?_ (fun x hx => hl x (List.mem_cons_of_mem _ hx)) g hg
      unfold wfRange at *
      dsimp only
      split <;> omega
    · rcases List.mem_cons.mp hg with hg | hg
      · subst hg; exact hcur
      · exact ih r (hl r (List.mem_cons_self _ _))
          (fun x hx => hl x (List.mem_cons_of_mem _ hx)) g hg

theorem mergeLoop_chained (cur : DayRange) (l : List DayRange)
    (hs : l.Sorted startLE) (hc : ∀ r ∈ l, cur.start ≤ r.start) :
    ChainedGap (mergeLoop cur l) := by
  induction l generalizing cur with
  | nil => simp [mergeLoop, ChainedGap]
  | cons r rest ih =>
    simp only [mergeLoop]
    split
    · exact ih _ hs.of_cons
        (fun x hx => hc x (List.mem_cons_of_mem _ hx))
    · rename_i h
      rw [ChainedGap, List.chain'_cons']
      refine ⟨fun y hy => ?_, ih r hs.of_cons (List.rel_of_sorted_cons hs)⟩
      have := mergeLoop_head?_start r rest y hy
      omega

theorem mergeLoop_start_bound (m : Nat) (cur : DayRange) (l : List DayRange)
    (hcur : m ≤ cur.start) (hl : ∀ r ∈ l, m ≤ r.start) :
    ∀ g ∈ mergeLoop cur l, m ≤ g.start := by
  induction l generalizing cur with
  | nil => intro g hg; simp [mergeLoop] at hg; subst hg; exact hcur
  | cons r rest ih =>
    intro g hg
    simp only [mergeLoop] at hg
    split at hg
    · exact ih ⟨cur.start, if cur.stop < r.stop then r.stop else cur.stop⟩
        hcur (fun x hx => hl x (List.mem_cons_of_mem _ hx)) g hg
    · rcases List.mem_cons.mp hg with hg | hg
      · subst hg; exact hcur
      · exact ih r (hl r (List.mem_cons_self _ _))
          (fun x hx => hl x (List.mem_cons_of_mem _ hx)) g hg

theorem mergeLoop_cover (cur : DayRange) (l : List DayRange)
    (hc : ∀ r ∈ l, cur.start ≤ r.start) (hs : l.Sorted startLE) (d : Nat) :
    inRanges (mergeLoop cur l) d ↔
      (cur.start ≤ d ∧ d ≤ cur.stop) ∨ inRanges l d := by
  induction l generalizing cur with
  | nil => simp [mergeLoop, inRanges]
  | cons r rest ih =>
    simp only [mergeLoop]
    split
    · rename_i h
      rw [ih ⟨cur.start, if cur.stop < r.stop then r.stop else cur.stop⟩
            (fun x hx => hc x (List.mem_cons_of_mem _ hx)) hs.of_cons,
          inRanges_cons]
      have hcr : cur.start ≤ r.start := hc r (List.mem_cons_self _ _)
      dsimp only
      constructor
      · rintro (⟨h1, h2⟩ | hq)
        · by_cases hd : d ≤ cur.stop
          · exact Or.inl ⟨h1, hd⟩
          · refine Or.inr (Or.inl ⟨by omega, ?_⟩)
            revert h2; split <;> omega
        · exact Or.inr (Or.inr hq)
      · rintro (⟨h1, h2⟩ | ⟨h1, h2⟩ | hq)
        · exact Or.inl ⟨h1, by split <;> omega⟩
        · exact Or.inl ⟨by omega, by split <;> omega⟩
        · exact Or.inr hq
    · rename_i h
      rw [inRanges_cons,
          ih r (List.rel_of_sorted_cons hs) hs.of_cons, inRanges_cons]

theorem mergeRanges_cover (C : List DayRange) (d : Nat) :
    inRanges (mergeRanges C) d ↔ inRanges C d := by
  unfold mergeRanges
  have hperm := List.perm_insertionSort startLE C
  have hsorted := List.sorted_insertionSort startLE C
  rcases hcase : List.insertionSort startLE C with - | ⟨r, rest⟩
  · rw [hcase] at hperm
    rw [← inRanges_perm hperm d]
  · rw [hcase] at hperm hsorted
    rw [mergeLoop_cover r rest (List.rel_of_sorted_cons hsorted)
          hsorted.of_cons d, ← inRanges_cons]
    exact inRanges_perm hperm d

theorem mergeRanges_wf (C : List DayRange) (hwf : ∀ r ∈ C, wfRange r) :
    ∀ g ∈ mergeRanges C, wfRange g := by
  unfold mergeRanges
  have hperm := List.perm_insertionSort startLE C
  rcases hcase : List.insertionSort startLE C with - | ⟨r, rest⟩
  · intro g hg; cases hg
  · rw [hcase] at hperm
    have hmem : ∀ x ∈ r :: rest, wfRange x := fun x hx => hwf x (hperm.mem_iff.mp hx)
    exact mergeLoop_wf r rest (hmem r (List.mem_cons_self _ _))
      (fun x hx => hmem x (List.mem_cons_of_mem _ hx))

theorem mergeRanges_chained (C : List DayRange) :
    ChainedGap (mergeRanges C) := by
  unfold mergeRanges
  have hsorted := List.sorted_insertionSort startLE C
  rcases hcase : List.insertionSort startLE C with - | ⟨r, rest⟩
  · exact List.chain'_nil
  · rw [hcase] at hsorted
    exact mergeLoop_chained r rest hsorted.of_cons
      (List.rel_of_sorted_cons hsorted)

theorem mergeRanges_start_bound (m : Nat) (C : List DayRange)
    (hl : ∀ r ∈ C, m ≤ r.start) :
    ∀ g ∈ mergeRanges C, m ≤ g.start := by
  unfold mergeRanges
  have hperm := List.perm_insertionSort startLE C
  rcases hcase : List.insertionSort startLE C with - | ⟨r, rest⟩
  · intro g hg; cases hg
  · rw [hcase] at hperm
    have hmem : ∀ x ∈ r :: rest, m ≤ x.start := fun x hx => hl x (hperm.mem_iff.mp hx)
    exact mergeLoop_start_bound m r rest (hmem r (List.mem_cons_self _ _))
      (fun x hx => hmem x (List.mem_cons_of_mem _ hx))

theorem chainedGap_rel {a : DayRange} {l : List DayRange}
    (h : ChainedGap (a :: l)) (hwf : ∀ r ∈ l, wfRange r) :
    ∀ b ∈ l, a.stop + 1 < b.start := by
  induction l generalizing a with
  | nil => simp
  | cons b l ih =>
    intro c hc
    have hab : a.stop + 1 < b.start := (List.chain'_cons.mp h).1
    rcases List.mem_cons.mp hc with hc | hc
    · subst hc; exact hab
    · have hbc := @ih b (List.chain'_cons.mp h).2
        (fun x hx => hwf x (List.mem_cons_of_mem _ hx)) c hc
      have hwb : wfRange b := hwf b (List.mem_cons_self _ _)
      unfold wfRange at hwb; omega

theorem chainedGap_sorted {l : List DayRange} (h : ChainedGap l)
    (hwf : ∀ r ∈ l, wfRange r) : l.Sorted startLE := by
  induction l with
  | nil => simp
  | cons a l ih =>
    rw [List.sorted_cons]
    refine ⟨fun b hb => ?_, ih ((List.chain'_cons'.mp h).2)
      (fun x hx => hwf x (List.mem_cons_of_mem _ hx))⟩
    have h1 := chainedGap_rel h (fun x hx => hwf x (List.mem_cons_of_mem _ hx)) b hb
    unfold startLE
    have hwa : wfRange a := hwf a (List.mem_cons_self _ _)
    unfold wfRange at hwa; omega

theorem mergeLoop_eq_of_chained {cur : DayRange} {l : List DayRange}
    (h : ChainedGap (cur :: l)) : mergeLoop cur l = cur :: l := by
  induction l generalizing cur with
  | nil => simp [mergeLoop]
  | cons r rest ih =>
    have hgap : cur.stop + 1 < r.start := (List.chain'_cons.mp h).1
    simp only [mergeLoop]
    rw [if_neg (by omega)]
    rw [ih (List.chain'_cons.mp h).2]

theorem mergeRanges_eq_self {l : List DayRange} (hc : ChainedGap l)
    (hwf : ∀ r ∈ l, wfRange r) : mergeRanges l = l := by
  unfold mergeRanges
  have hs : l.Sorted startLE := chainedGap_sorted hc hwf
  rw [hs.insertionSort_eq]
  cases l with
  | nil => rfl
  | cons r rest => exact mergeLoop_eq_of_chained hc

/-! ## Lemmas about `subtractRanges` -/

theorem inRanges_singleton {a b d : Nat} :
    inRanges [⟨a, b⟩] d ↔ a ≤ d ∧ d ≤ b := by
  rw [inRanges_cons]
  simp [inRanges_nil]

theorem inRanges_append {l1 l2 : List DayRange} {d : Nat} :
    inRanges (l1 ++ l2) d ↔ inRanges l1 d ∨ inRanges l2 d := by
  unfold inRanges
  constructor
  · rintro ⟨r, hr, h1, h2⟩
    rcases List.mem_append.mp hr with hr | hr
    · exact Or.inl ⟨r, hr, h1, h2⟩
    · exact Or.inr ⟨r, hr, h1, h2⟩
  · rintro (⟨r, hr, h1, h2⟩ | ⟨r, hr, h1, h2⟩)
    · exact ⟨r, List.mem_append.mpr (Or.inl hr), h1, h2⟩
    · exact ⟨r, List.mem_append.mpr (Or.inr hr), h1, h2⟩

/-- Conditional unfolding of `subtractLoop` on a cons cell, with the
cursor update simplified by the fact that the skip test already failed. -/
theorem subtractLoop_cons (uStop cursor : Nat) (r : DayRange)
    (rest : List DayRange) :
    subtractLoop uStop cursor (r :: rest) =
      if r.stop < cursor then subtractLoop uStop cursor rest
      else if uStop < r.start then
        (if cursor ≤ uStop then [⟨cursor, uStop⟩] else [])
      else
        (if cursor < r.start then [⟨cursor, r.start - 1⟩] else []) ++
        (if uStop < r.stop + 1 then []
         else subtractLoop uStop (r.stop + 1) rest) := by
  by_cases h1 : r.stop < cursor
  · simp [subtractLoop, h1]
  · by_cases h2 : uStop < r.start
    · simp [subtractLoop, h1, h2]
    · have hc : cursor ≤ r.stop := by omega
      by_cases h3 : uStop < r.stop + 1
      · simp [subtractLoop, h1, h2, hc, h3]
      · simp [subtractLoop, h1, h2, hc, h3]

theorem subtractLoop_bounds (uStop : Nat) (l : List DayRange) :
    ∀ cursor, ∀ g ∈ subtractLoop uStop cursor l,
      cursor ≤ g.start ∧ g.start ≤ g.stop ∧ g.stop ≤ uStop := by
  induction l with
  | nil =>
    intro cursor g hg
    simp only [subtractLoop] at hg
    split at hg
    · rename_i h; simp at hg; subst hg
      exact ⟨Nat.le_refl _, h, Nat.le_refl _⟩
    · cases hg
  | cons r rest ih =>
    intro cursor g hg
    rw [subtractLoop_cons] at hg
    split at hg
    · exact ih cursor g hg
    · rename_i h1
      split at hg
      · rename_i h2
        split at hg
        · rename_i h3; simp at hg; subst hg
          exact ⟨Nat.le_refl _, h3, Nat.le_refl _⟩
        · cases hg
      · rename_i h2
        rcases List.mem_append.mp hg with hg | hg
        · split at hg
          · rename_i h4; simp at hg; subst hg
            exact ⟨Nat.le_refl _, by show cursor ≤ r.start - 1; omega,
                   by show r.start - 1 ≤ uStop; omega⟩
          · cases hg
        · split at hg
          · cases hg
          · have := ih (r.stop + 1) g hg
            omega

theorem subtractLoop_chained (uStop : Nat) (l : List DayRange)
    (hwf : ∀ r ∈ l, wfRange r) :
    ∀ cursor, ChainedGap (subtractLoop uStop cursor l) := by
  induction l with
  | nil =>
    intro cursor
    simp only [subtractLoop]
    split
    · exact List.chain'_singleton _
    · exact List.chain'_nil
  | cons r rest ih =>
    intro cursor
    have hrest : ∀ x ∈ rest, wfRange x :=
      fun x hx => hwf x (List.mem_cons_of_mem _ hx)
    have hwr : wfRange r := hwf r (List.mem_cons_self _ _)
    rw [subtractLoop_cons]
    split
    · exact ih hrest cursor
    · split
      · split
        · exact List.chain'_singleton _
        · exact List.chain'_nil
      · rename_i h1 h2
        by_cases h4 : cursor < r.start <;> by_cases h3 : uStop < r.stop + 1
        · rw [if_pos h4, if_pos h3, List.append_nil]
          exact List.chain'_singleton _
        · rw [if_pos h4, if_neg h3, List.singleton_append]
          rw [ChainedGap, List.chain'_cons']
          refine ⟨fun y hy => ?_, ih hrest (r.stop + 1)⟩
          have hmem := List.mem_of_mem_head? hy
          have := (subtractLoop_bounds uStop rest (r.stop + 1) y hmem).1
          unfold wfRange at hwr
          show (⟨cursor, r.start - 1⟩ : DayRange).stop + 1 < y.start
          dsimp only
          omega
        · rw [if_neg h4, if_pos h3, List.nil_append]
          exact List.chain'_nil
        · rw [if_neg h4, if_neg h3, List.nil_append]
          exact ih hrest (r.stop + 1)

theorem subtractLoop_cover (uStop : Nat) (l : List DayRange)
    (hwf : ∀ r ∈ l, wfRange r) (hch : ChainedGap l) :
    ∀ cursor d, inRanges (subtractLoop uStop cursor l) d ↔
      (cursor ≤ d ∧ d ≤ uStop ∧ ¬ inRanges l d) := by
  induction l with
  | nil =>
    intro cursor d
    simp only [subtractLoop]
    split
    · rename_i h
      rw [inRanges_cons]
      simp only [inRanges_nil, or_false, not_false_iff, and_true]
    · rename_i h
      simp only [inRanges_nil, false_iff]
      rintro ⟨h1, h2, -⟩; omega
  | cons r rest ih =>
    intro cursor d
    have hrest : ∀ x ∈ rest, wfRange x :=
      fun x hx => hwf x (List.mem_cons_of_mem _ hx)
    have hwr : wfRange r := hwf r (List.mem_cons_self _ _)
    have hchrest : ChainedGap rest := List.Chain'.tail hch
    have hrel : ∀ b ∈ rest, r.stop + 1 < b.start := chainedGap_rel hch hrest
    unfold wfRange at hwr
    rw [subtractLoop_cons]
    split
    · rename_i h1
      rw [ih hrest hchrest cursor d, inRanges_cons]
      constructor
      · rintro ⟨hd1, hd2, hd3⟩
        refine ⟨hd1, hd2, ?_⟩
        rintro (⟨ha, hb⟩ | hc)
        · omega
        · exact hd3 hc
      · rintro ⟨hd1, hd2, hd3⟩
        exact ⟨hd1, hd2, fun hc => hd3 (Or.inr hc)⟩
    · rename_i h1
      split
      · rename_i h2
        split
        · rename_i h3
          rw [inRanges_cons]
          simp only [inRanges_nil, or_false]
          rw [inRanges_cons]
          constructor
          · rintro ⟨ha, hb⟩
            refine ⟨ha, hb, ?_⟩
            rintro (⟨hc, hd⟩ | hc)
            · omega
            · obtain ⟨b, hbm, hb1, hb2⟩ := hc
              have := hrel b hbm; omega
          · rintro ⟨ha, hb, -⟩; exact ⟨ha, hb⟩
        · rename_i h3
          simp only [inRanges_nil, false_iff]
          rintro ⟨ha, hb, -⟩; omega
      · rename_i h2
        rw [inRanges_append, @inRanges_cons r rest d]
        by_cases h4 : cursor < r.start <;> by_cases h3 : uStop < r.stop + 1
        · rw [if_pos h4, if_pos h3, inRanges_singleton]
          simp only [inRanges_nil, or_false]
          constructor
          · rintro ⟨ha, hb⟩
            refine ⟨ha, by omega, ?_⟩
            rintro (⟨hc, hd⟩ | hc)
            · omega
            · obtain ⟨b, hbm, hb1, hb2⟩ := hc
              have := hrel b hbm; omega
          · rintro ⟨ha, hb, hneg⟩
            have hnr : ¬(r.start ≤ d ∧ d ≤ r.stop) :=
              fun hc => hneg (Or.inl hc)
            exact ⟨ha, by omega⟩
        · rw [if_pos h4, if_neg h3, inRanges_singleton,
              ih hrest hchrest (r.stop + 1) d]
          constructor
          · rintro (⟨ha, hb⟩ | ⟨ha, hb, hneg⟩)
            · refine ⟨ha, by omega, ?_⟩
              rintro (⟨hc, hd⟩ | hc)
              · omega
              · obtain ⟨b, hbm, hb1, hb2⟩ := hc
                have := hrel b hbm; omega
            · refine ⟨by omega, hb, ?_⟩
              rintro (⟨hc, hd⟩ | hc)
              · omega
              · exact hneg hc
          · rintro ⟨ha, hb, hneg⟩
            have hnr : ¬(r.start ≤ d ∧ d ≤ r.stop) :=
              fun hc => hneg (Or.inl hc)
            have hnrest : ¬ inRanges rest d :=
              fun hc => hneg (Or.inr hc)
            by_cases hd4 : d < r.start
            · exact Or.inl ⟨ha, by omega⟩
            · exact Or.inr ⟨by omega, hb, hnrest⟩
        · rw [if_neg h4, if_pos h3]
          simp only [inRanges_nil, or_false, false_iff]
          rintro ⟨ha, hb, hneg⟩
          exact hneg (Or.inl ⟨by omega, by omega⟩)
        · rw [if_neg h4, if_neg h3, ih hrest hchrest (r.stop + 1) d]
          simp only [inRanges_nil, false_or]
          constructor
          · rintro ⟨ha, hb, hneg⟩
            refine ⟨by omega, hb, ?_⟩
            rintro (⟨hc, hd⟩ | hc)
            · omega
            · exact hneg hc
          · rintro ⟨ha, hb, hneg⟩
            have hnr : ¬(r.start ≤ d ∧ d ≤ r.stop) :=
              fun hc => hneg (Or.inl hc)
            have hnrest : ¬ inRanges rest d :=
              fun hc => hneg (Or.inr hc)
            exact ⟨by omega, hb, hnrest⟩

theorem subtractRanges_cover (uni : DayRange) (C : List DayRange)
    (hwfC : ∀ r ∈ C, wfRange r) (d : Nat) :
    inRanges (subtractRanges uni C) d ↔
      (uni.start ≤ d ∧ d ≤ uni.stop ∧ ¬ inRanges C d) := by
  unfold subtractRanges
  rw [subtractLoop_cover uni.stop (mergeRanges C) (mergeRanges_wf C hwfC)
        (mergeRanges_chained C) uni.start d, mergeRanges_cover]

theorem subtractRanges_bounds (uni : DayRange) (C : List DayRange) :
    ∀ g ∈ subtractRanges uni C,
      uni.start ≤ g.start ∧ g.start ≤ g.stop ∧ g.stop ≤ uni.stop :=
  fun g hg => subtractLoop_bounds uni.stop (mergeRanges C) uni.start g hg

theorem subtractRanges_chained (uni : DayRange) (C : List DayRange)
    (hwfC : ∀ r ∈ C, wfRange r) : ChainedGap (subtractRanges uni C) :=
  subtractLoop_chained uni.stop (mergeRanges C)
    (mergeRanges_wf C hwfC) uni.start

theorem subtractRanges_eq_nil_of_covered (uni : DayRange)
    (C : List DayRange) (hwfC : ∀ r ∈ C, wfRange r)
    (hcov : ∀ d, uni.start ≤ d → d ≤ uni.stop → inRanges C d) :
    subtractRanges uni C = [] := by
  rcases hl : subtractRanges uni C with - | ⟨g, rest⟩
  · rfl
  · exfalso
    have hg : g ∈ subtractRanges uni C := by rw [hl]; exact List.mem_cons_self _ _
    have hb := subtractRanges_bounds uni C g hg
    have hin : inRanges (subtractRanges uni C) g.start :=
      ⟨g, hg, Nat.le_refl _, hb.2.1⟩
    rw [subtractRanges_cover uni C hwfC g.start] at hin
    exact hin.2.2 (hcov g.start hin.1 hin.2.1)

theorem subtractLoop_all_disjoint (uStop : Nat) (l : List DayRange) :
    ∀ cursor, cursor ≤ uStop →
    (∀ r ∈ l, r.stop < cursor ∨ uStop < r.start) →
    subtractLoop uStop cursor l = [⟨cursor, uStop⟩] := by
  induction l with
  | nil => intro cursor hc _; simp [subtractLoop, hc]
  | cons r rest ih =>
    intro cursor hc hd
    rw [subtractLoop_cons]
    by_cases h1 : r.stop < cursor
    · rw [if_pos h1]
      exact ih cursor hc (fun x hx => hd x (List.mem_cons_of_mem _ hx))
    · rw [if_neg h1]
      have h2 : uStop < r.start := by
        rcases hd r (List.mem_cons_self _ _) with h | h
        · omega
        · exact h
      rw [if_pos h2, if_pos hc]

theorem subtractRanges_eq_uni_of_disjoint (uni : DayRange)
    (C : List DayRange) (hwfC : ∀ r ∈ C, wfRange r)
    (huni : wfRange uni)
    (hdisj : ∀ r ∈ C, r.stop < uni.start ∨ uni.stop < r.start) :
    subtractRanges uni C = [uni] := by
  unfold subtractRanges
  have hmd : ∀ g ∈ mergeRanges C, g.stop < uni.start ∨ uni.stop < g.start := by
    intro g hg
    by_contra hcon
    push_neg at hcon
    obtain ⟨hA, hB⟩ := hcon
    have hwg : wfRange g := mergeRanges_wf C hwfC g hg
    unfold wfRange at hwg huni
    set m := max g.start uni.start with hm
    have hing : inRanges (mergeRanges C) m :=
      ⟨g, hg, le_max_left _ _, by omega⟩
    rw [mergeRanges_cover] at hing
    obtain ⟨x, hx, hx1, hx2⟩ := hing
    rcases hdisj x hx with h | h <;> omega
  rw [subtractLoop_all_disjoint uni.stop (mergeRanges C) uni.start huni hmd]

/-! ## Lemmas about the delta loop and the open-ended marker -/

theorem deltaLoop_calls (marker : Option Nat) (fr ds : List DayRange) :
    (deltaLoop marker fr ds).1 =
      (ds.filter (fun d => ! shouldSkipDelta marker d)).map
        (fun d => ⟨d.start, marker⟩) := by
  induction ds generalizing fr with
  | nil => rfl
  | cons d ds ih =>
    cases h : shouldSkipDelta marker d
    · simp [deltaLoop, h, List.filter_cons, ih]
    · simp [deltaLoop, h, List.filter_cons, ih]

theorem deltaLoop_fr_of_all_skip (marker : Option Nat) (fr ds : List DayRange)
    (h : ∀ d ∈ ds, shouldSkipDelta marker d = true) :
    (deltaLoop marker fr ds).2 = fr := by
  induction ds generalizing fr with
  | nil => rfl
  | cons d ds ih =>
    simp only [deltaLoop]
    rw [if_pos (h d (List.mem_cons_self _ _))]
    exact ih fr (fun x hx => h x (List.mem_cons_of_mem _ hx))

theorem subtractLoop_start_origin (uStop : Nat) (l : List DayRange) :
    ∀ cursor, ∀ g ∈ subtractLoop uStop cursor l,
      g.start = cursor ∨ ∃ r ∈ l, g.start = r.stop + 1 := by
  induction l with
  | nil =>
    intro cursor g hg
    simp only [subtractLoop] at hg
    split at hg
    · simp at hg; subst hg; left; rfl
    · cases hg
  | cons r rest ih =>
    intro cursor g hg
    rw [subtractLoop_cons] at hg
    split at hg
    · rcases ih cursor g hg with h | ⟨x, hx, h⟩
      · left; exact h
      · right; exact ⟨x, List.mem_cons_of_mem _ hx, h⟩
    · split at hg
      · split at hg
        · simp at hg; subst hg; left; rfl
        · cases hg
      · rcases List.mem_append.mp hg with hg | hg
        · split at hg
          · simp at hg; subst hg; left; rfl
          · cases hg
        · split at hg
          · cases hg
          · rcases ih (r.stop + 1) g hg with h | ⟨x, hx, h⟩
            · right; exact ⟨r, List.mem_cons_self _ _, h⟩
            · right; exact ⟨x, List.mem_cons_of_mem _ hx, h⟩

theorem subtractLoop_head_eq (uStop cursor : Nat) (l : List DayRange)
    (hcu : cursor ≤ uStop)
    (hl : ∀ r ∈ l, wfRange r ∧ cursor < r.start) :
    ∃ e rest', subtractLoop uStop cursor l = ⟨cursor, e⟩ :: rest' := by
  cases l with
  | nil => exact ⟨uStop, [], by simp [subtractLoop, hcu]⟩
  | cons r rest =>
    have hr := hl r (List.mem_cons_self _ _)
    have hwr := hr.1
    unfold wfRange at hwr
    rw [subtractLoop_cons]
    rw [if_neg (show ¬ r.stop < cursor by omega)]
    by_cases h2 : uStop < r.start
    · rw [if_pos h2, if_pos hcu]
      exact ⟨uStop, [], rfl⟩
    · rw [if_neg h2, if_pos hr.2]
      by_cases h3 : uStop < r.stop + 1
      · rw [if_pos h3, List.append_nil]
        exact ⟨r.start - 1, [], rfl⟩
      · rw [if_neg h3, List.singleton_append]
        exact ⟨r.start - 1, _, rfl⟩

/-- When the universe starts strictly below the marker and every cached
range starts at/after the marker, the delta list is one gap starting at
`universe.start` followed only by gaps starting strictly above the marker. -/
theorem subtract_deltas_below_marker (uni : DayRange) (fr : List DayRange)
    (m : Nat) (hwf : ∀ r ∈ fr, wfRange r) (hlb : ∀ r ∈ fr, m ≤ r.start)
    (huni : wfRange uni) (hum : uni.start < m) :
    ∃ e rest', subtractRanges uni fr = ⟨uni.start, e⟩ :: rest' ∧
      ∀ g ∈ rest', m < g.start := by
  have hmwf : ∀ r ∈ mergeRanges fr, wfRange r := mergeRanges_wf fr hwf
  have hmlb : ∀ r ∈ mergeRanges fr, m ≤ r.start := mergeRanges_start_bound m fr hlb
  obtain ⟨e, rest', heq⟩ := subtractLoop_head_eq uni.stop uni.start
    (mergeRanges fr) huni
    (fun r hr => ⟨hmwf r hr, by have := hmlb r hr; omega⟩)
  refine ⟨e, rest', heq, fun g hg => ?_⟩
  have hgmem : g ∈ subtractRanges uni fr := by
    unfold subtractRanges; rw [heq]; exact List.mem_cons_of_mem _ hg
  rcases subtractLoop_start_origin uni.stop (mergeRanges fr) uni.start g
      hgmem with h | ⟨r, hr, h⟩
  · -- a non-head gap cannot start at the cursor: gaps are chained
    exfalso
    have hch : ChainedGap (subtractRanges uni fr) :=
      subtractRanges_chained uni fr hwf
    rw [show subtractRanges uni fr = ⟨uni.start, e⟩ :: rest' from heq] at hch
    have hrest'wf : ∀ x ∈ rest', wfRange x := by
      intro x hx
      have hxm : x ∈ subtractRanges uni fr := by
        unfold subtractRanges; rw [heq]; exact List.mem_cons_of_mem _ hx
      exact (subtractRanges_bounds uni fr x hxm).2.1
    have := chainedGap_rel hch hrest'wf g hg
    dsimp only at this
    have hhead : (⟨uni.start, e⟩ : DayRange) ∈ subtractRanges uni fr := by
      unfold subtractRanges; rw [heq]; exact List.mem_cons_self _ _
    have hwfh := (subtractRanges_bounds uni fr _ hhead).2.1
    dsimp only at hwfh
    omega
  · have h1 := hmwf r hr
    have h2 := hmlb r hr
    unfold wfRange at h1
    omega

theorem chainedGap_pairwise {l : List DayRange} (h : ChainedGap l)
    (hwf : ∀ r ∈ l, wfRange r) :
    l.Pairwise (fun a b => a.stop + 1 < b.start) := by
  induction l with
  | nil => exact List.Pairwise.nil
  | cons a l ih =>
    refine List.pairwise_cons.mpr
      ⟨chainedGap_rel h (fun x hx => hwf x (List.mem_cons_of_mem _ hx)),
       ih (List.Chain'.tail h) (fun x hx => hwf x (List.mem_cons_of_mem _ hx))⟩

theorem deltaLoop_calls_nil (marker : Option Nat) (fr ds : List DayRange)
    (h : ∀ d ∈ ds, shouldSkipDelta marker d = true) :
    (deltaLoop marker fr ds).1 = [] := by
  rw [deltaLoop_calls]
  rw [List.filter_eq_nil_iff.mpr (by intro a ha; simp [h a ha]), List.map_nil]

/-! ## Claims -/

/-- C2: for every universe `U` with `U.start ≤ U.end` and every list `C` of
well-formed day ranges, the union of `subtractRanges U C` and `C ∩ U`
equals `U` exactly, `subtractRanges U C` is disjoint from `C`, its ranges
are well-formed, pairwise disjoint and non-adjacent; a fully covered
universe yields `[]` and a fully uncovered universe yields `[U]`. -/
theorem C2_subtract_coverage (U : DayRange) (C : List DayRange)
    (hU : wfRange U) (hC : ∀ r ∈ C, wfRange r) :
    (∀ d, (U.start ≤ d ∧ d ≤ U.stop) ↔
      (inRanges (subtractRanges U C) d ∨
        (inRanges C d ∧ U.start ≤ d ∧ d ≤ U.stop))) ∧
    (∀ d, inRanges (subtractRanges U C) d → ¬ inRanges C d) ∧
    (subtractRanges U C).Pairwise (fun a b => a.stop + 1 < b.start) ∧
    (∀ g ∈ subtractRanges U C, wfRange g) ∧
    ((∀ d, U.start ≤ d → d ≤ U.stop → inRanges C d) →
      subtractRanges U C = []) ∧
    ((∀ r ∈ C, r.stop < U.start ∨ U.stop < r.start) →
      subtractRanges U C = [U]) := by
  have hwfout : ∀ g ∈ subtractRanges U C, wfRange g :=
    fun g hg => (subtractRanges_bounds U C g hg).2.1
  refine ⟨?_, ?_,
    chainedGap_pairwise (subtractRanges_chained U C hC) hwfout, hwfout,
    subtractRanges_eq_nil_of_covered U C hC,
    subtractRanges_eq_uni_of_disjoint U C hC hU⟩
  · intro d
    rw [subtractRanges_cover U C hC d]
    constructor
    · rintro ⟨h1, h2⟩
      by_cases h : inRanges C d
      · exact Or.inr ⟨h, h1, h2⟩
      · exact Or.inl ⟨h1, h2, h⟩
    · rintro (⟨h1, h2, -⟩ | ⟨-, h1, h2⟩) <;> exact ⟨h1, h2⟩
  · intro d hd
    rw [subtractRanges_cover U C hC d] at hd
    exact hd.2.2

/-- Witness for C2 at the concrete universe `[5,10]` and coverage `[[7,8]]`:
the gaps are `[5,6]` and `[9,10]`. -/
theorem C2_subtract_coverage_witness :
    subtractRanges ⟨5, 10⟩ [⟨7, 8⟩] = [⟨5, 6⟩, ⟨9, 10⟩] ∧
    (∀ d, inRanges (subtractRanges ⟨5, 10⟩ [⟨7, 8⟩]) d →
      ¬ inRanges [(⟨7, 8⟩ : DayRange)] d) :=
  ⟨by decide,
   (C2_subtract_coverage ⟨5, 10⟩ [⟨7, 8⟩] (by decide) (by decide)).2.1⟩

/-- C3: `mergeRanges` is idempotent on lists of well-formed ranges, and its
output is sorted by start with consecutive ranges neither overlapping nor
adjacent (`nextDay (output i).end < (output (i+1)).start`). -/
theorem C3_merge_idempotent (R : List DayRange)
    (hR : ∀ r ∈ R, wfRange r) :
    mergeRanges (mergeRanges R) = mergeRanges R ∧
    (mergeRanges R).Sorted startLE ∧
    List.Chain' (fun a b => a.stop + 1 < b.start) (mergeRanges R) := by
  have hwf := mergeRanges_wf R hR
  have hch := mergeRanges_chained R
  exact ⟨mergeRanges_eq_self hch hwf, chainedGap_sorted hch hwf, hch⟩

/-- Witness for C3 at `[[5,7],[6,9],[11,12]]`: the merge is
`[[5,9],[11,12]]` and re-merging leaves it unchanged. -/
theorem C3_merge_idempotent_witness :
    mergeRanges [⟨5, 7⟩, ⟨6, 9⟩, ⟨11, 12⟩] = [⟨5, 9⟩, ⟨11, 12⟩] ∧
    mergeRanges (mergeRanges [⟨5, 7⟩, ⟨6, 9⟩, ⟨11, 12⟩]) =
      mergeRanges [⟨5, 7⟩, ⟨6, 9⟩, ⟨11, 12⟩] :=
  ⟨by decide,
   (C3_merge_idempotent [⟨5, 7⟩, ⟨6, 9⟩, ⟨11, 12⟩] (by decide)).1⟩

/-- June 2023 as a day range (C1 scenario, first request). -/
def juneRange2023 : DayRange := ⟨toEpochDay 2023 6 1, toEpochDay 2023 6 30⟩

/-- May 2023 as a day range (C1 scenario, second request). -/
def mayRange2023 : DayRange := ⟨toEpochDay 2023 5 1, toEpochDay 2023 5 31⟩

/-- Cache state after the first (June) request of the C1 scenario. -/
def c1AfterJune : CacheState :=
  (getIssuesByActivityCalls ⟨[], none⟩ juneRange2023).2

/-- Calls and state of the second (May) request of the C1 scenario. -/
def c1AfterMay : List FetchCall × CacheState :=
  getIssuesByActivityCalls c1AfterJune mayRange2023

/-- C1 counterexample: in the June-then-May scenario the second call does
perform exactly one fetch covering May only (`updated >= 2023-05-01 AND
updated < 2023-06-01`), but the final covered-range set is NOT the two
separate ranges `[{2023-05-01..2023-05-31},{2023-06-01..2023-06-30}]`: since
2023-05-31 and 2023-06-01 are adjacent days (`nextDay` of one is the other),
`mergeRanges` folds them into the single range `{2023-05-01..2023-06-30}`. -/
theorem C1_counterexample_merged_coverage :
    c1AfterMay.1 = [⟨toEpochDay 2023 5 1, some (toEpochDay 2023 6 1)⟩] ∧
    c1AfterMay.2.fetchedRanges ≠
      [⟨toEpochDay 2023 5 1, toEpochDay 2023 5 31⟩,
       ⟨toEpochDay 2023 6 1, toEpochDay 2023 6 30⟩] ∧
    toEpochDay 2023 6 1 = toEpochDay 2023 5 31 + 1 := by decide

/-- C1 (amended): fetching June 2023 first and then May 2023 on a fresh
cache performs exactly one network fetch on the second call, covering May
only (`updated >= 2023-05-01` with exclusive upper bound at the marker
2023-06-01), and afterwards the covered-range set equals the SINGLE merged
range `{2023-05-01..2023-06-30}` (the two fetched ranges are adjacent —
May 31 + 1 day = June 1 — so `mergeRanges` folds them); the open-ended
marker ends at 2023-05-01. -/
theorem C1_amended_scenario :
    (getIssuesByActivityCalls ⟨[], none⟩ juneRange2023).1 =
      [⟨toEpochDay 2023 6 1, none⟩] ∧
    c1AfterMay.1 = [⟨toEpochDay 2023 5 1, some (toEpochDay 2023 6 1)⟩] ∧
    c1AfterMay.2.fetchedRanges =
      [⟨toEpochDay 2023 5 1, toEpochDay 2023 6 30⟩] ∧
    c1AfterMay.2.openEndedStart = some (toEpochDay 2023 5 1) := by decide

/-- C4: with the open-ended marker at `S1` (so every cached range starts
at/after `S1`), a later request whose window starts at `S2 > S1` performs
no fetch; one starting at `S2 < S1` performs exactly one fetch
`updated >= S2 AND updated < S1` (exclusive upper bound at the marker);
and for any state with a marker the marker only moves to
`min(previous, universe.start)`, never later. -/
theorem C4_open_ended_monotonicity (st : CacheState) (S1 : Nat)
    (hS1 : st.openEndedStart = some S1)
    (hwf : ∀ r ∈ st.fetchedRanges, wfRange r)
    (hlb : ∀ r ∈ st.fetchedRanges, S1 ≤ r.start)
    (uni : DayRange) (huni : wfRange uni) :
    (S1 < uni.start → (getIssuesByActivityCalls st uni).1 = []) ∧
    (uni.start < S1 →
      (getIssuesByActivityCalls st uni).1 = [⟨uni.start, some S1⟩]) ∧
    (∀ st2 : CacheState, ∀ uni2 : DayRange, ∀ m2 : Nat,
      st2.openEndedStart = some m2 →
      ∃ m2', ((getIssuesByActivityCalls st2 uni2).2).openEndedStart = some m2' ∧
        m2' ≤ m2 ∧ (m2' = min m2 uni2.start ∨ m2' = m2)) := by
  refine ⟨?_, ?_, ?_⟩
  · intro hS2
    unfold getIssuesByActivityCalls
    by_cases hemp : (subtractRanges uni st.fetchedRanges).isEmpty
    · rw [if_pos hemp]
    · rw [if_neg hemp]
      dsimp only
      apply deltaLoop_calls_nil
      intro d hd
      rw [hS1]
      unfold shouldSkipDelta
      have := (subtractRanges_bounds uni st.fetchedRanges d hd).1
      simp only [decide_eq_true_eq]
      omega
  · intro hS2
    obtain ⟨e, rest', heq, hrest⟩ :=
      subtract_deltas_below_marker uni st.fetchedRanges S1 hwf hlb huni hS2
    unfold getIssuesByActivityCalls
    rw [hS1, heq]
    rw [if_neg (by simp)]
    dsimp only
    rw [deltaLoop_calls]
    have hns : shouldSkipDelta (some S1) ⟨uni.start, e⟩ = false := by
      unfold shouldSkipDelta
      exact decide_eq_false_iff_not.mpr (by show ¬ S1 ≤ uni.start; omega)
    have hnil : List.filter (fun d => !shouldSkipDelta (some S1) d) rest' = [] := by
      refine List.filter_eq_nil_iff.mpr (fun a ha => ?_)
      have hga := hrest a ha
      have : shouldSkipDelta (some S1) a = true := by
        unfold shouldSkipDelta
        simp only [decide_eq_true_eq]
        omega
      simp [this]
    simp only [List.filter_cons, hns, Bool.not_false, if_pos, hnil]
    rfl
  · intro st2 uni2 m2 hm2
    unfold getIssuesByActivityCalls
    by_cases hemp : (subtractRanges uni2 st2.fetchedRanges).isEmpty
    · rw [if_pos hemp]
      exact ⟨m2, hm2, Nat.le_refl _, Or.inr rfl⟩
    · rw [if_neg hemp]
      dsimp only
      unfold updateMarker
      rw [hm2]
      dsimp only
      by_cases h : uni2.start < m2
      · rw [if_pos h]
        exact ⟨uni2.start, rfl, by omega, Or.inl (by omega)⟩
      · rw [if_neg h]
        exact ⟨m2, rfl, Nat.le_refl _, Or.inl (by omega)⟩

/-- Witness for C4: with one cached range `[10,20]` and marker `10`, a
request `[5,8]` (start below the marker) issues exactly the fetch
`updated >= 5 AND updated < 10`, and a request `[12,25]` (start above the
marker) issues none. -/
theorem C4_open_ended_monotonicity_witness :
    (getIssuesByActivityCalls ⟨[⟨10, 20⟩], some 10⟩ ⟨5, 8⟩).1 =
      [⟨5, some 10⟩] ∧
    (getIssuesByActivityCalls ⟨[⟨10, 20⟩], some 10⟩ ⟨12, 25⟩).1 = [] :=
  ⟨(C4_open_ended_monotonicity ⟨[⟨10, 20⟩], some 10⟩ 10 rfl (by decide)
      (by decide) ⟨5, 8⟩ (by decide)).2.1 (by decide),
   (C4_open_ended_monotonicity ⟨[⟨10, 20⟩], some 10⟩ 10 rfl (by decide)
      (by decide) ⟨12, 25⟩ (by decide)).1 (by decide)⟩

/-- Reachable-state invariant of the cache: ranges are well-formed, the
range list is empty until the marker is first set, and every cached range
starts at or after the marker.  It holds for a fresh cache and is
preserved by every call, so C4's hypotheses hold after any sequence of
calls — in particular right after an open-ended fetch set the marker. -/
def CacheInv (st : CacheState) : Prop :=
  (∀ r ∈ st.fetchedRanges, wfRange r) ∧
  (st.openEndedStart = none → st.fetchedRanges = []) ∧
  (∀ m, st.openEndedStart = some m → ∀ r ∈ st.fetchedRanges, m ≤ r.start)

theorem deltaLoop_fr_bound (b : Nat) (marker : Option Nat) :
    ∀ (ds fr : List DayRange),
    (∀ r ∈ fr, wfRange r ∧ b ≤ r.start) →
    (∀ d ∈ ds, wfRange d ∧ b ≤ d.start) →
    ∀ r ∈ (deltaLoop marker fr ds).2, wfRange r ∧ b ≤ r.start := by
  intro ds
  induction ds with
  | nil => intro fr hfr _ r hr; exact hfr r hr
  | cons d ds ih =>
    intro fr hfr hds
    simp only [deltaLoop]
    by_cases hskip : shouldSkipDelta marker d = true
    · rw [if_pos hskip]
      exact ih fr hfr (fun x hx => hds x (List.mem_cons_of_mem _ hx))
    · rw [if_neg hskip]
      dsimp only
      refine ih (mergeRanges (fr ++ [d])) ?_
        (fun x hx => hds x (List.mem_cons_of_mem _ hx))
      have hall : ∀ x ∈ fr ++ [d], wfRange x ∧ b ≤ x.start := by
        intro x hx
        rcases List.mem_append.mp hx with hx | hx
        · exact hfr x hx
        · rw [List.mem_singleton.mp hx]
          exact hds d (List.mem_cons_self _ _)
      intro r hr
      exact ⟨mergeRanges_wf _ (fun x hx => (hall x hx).1) r hr,
             mergeRanges_start_bound b _ (fun x hx => (hall x hx).2) r hr⟩

theorem getIssuesByActivityCalls_preserves_inv (st : CacheState)
    (uni : DayRange) (hinv : CacheInv st) :
    CacheInv (getIssuesByActivityCalls st uni).2 := by
  obtain ⟨hwf, hnone, hlb⟩ := hinv
  unfold getIssuesByActivityCalls
  by_cases hemp : (subtractRanges uni st.fetchedRanges).isEmpty
  · rw [if_pos hemp]; exact ⟨hwf, hnone, hlb⟩
  · rw [if_neg hemp]
    dsimp only
    have hdelta : ∀ d ∈ subtractRanges uni st.fetchedRanges,
        wfRange d ∧ uni.start ≤ d.start := by
      intro d hd
      have := subtractRanges_bounds uni st.fetchedRanges d hd
      exact ⟨this.2.1, this.1⟩
    rcases hm : st.openEndedStart with - | m
    · -- fresh marker: fetchedRanges was empty, new marker is uni.start
      have hfr0 : st.fetchedRanges = [] := hnone hm
      have hres := deltaLoop_fr_bound uni.start none
        (subtractRanges uni st.fetchedRanges) st.fetchedRanges
        (by rw [hfr0]; intro r hr; cases hr) hdelta
      refine ⟨fun r hr => (hres r hr).1, ?_, ?_⟩
      · intro hcon
        unfold updateMarker at hcon
        cases hcon
      · intro m' hm' r hr
        unfold updateMarker at hm'
        cases hm'
        exact (hres r hr).2
    · -- existing marker m: new marker is min m uni.start
      have hb : ∀ r ∈ st.fetchedRanges,
          wfRange r ∧ min m uni.start ≤ r.start := by
        intro r hr
        have := hlb m hm r hr
        exact ⟨hwf r hr, by omega⟩
      have hres := deltaLoop_fr_bound (min m uni.start) (some m)
        (subtractRanges uni st.fetchedRanges) st.fetchedRanges hb
        (fun d hd => ⟨(hdelta d hd).1, by have := (hdelta d hd).2; omega⟩)
      refine ⟨fun r hr => (hres r hr).1, ?_, ?_⟩
      · intro hcon
        unfold updateMarker at hcon
        dsimp only at hcon
        split at hcon <;> cases hcon
      · intro m' hm' r hr
        unfold updateMarker at hm'
        dsimp only at hm'
        have heq : m' = min m uni.start := by
          split at hm' <;> (cases hm'; omega)
        rw [heq]
        exact (hres r hr).2

theorem cacheInv_fresh : CacheInv ⟨[], none⟩ := by
  refine ⟨?_, ?_, ?_⟩
  · intro r hr; cases hr
  · intro _; rfl
  · intro m hm; cases hm

/-- C10: whenever `getIssuesByActivity` or `getIssuesByActivityStream`
performs at least one fetch, the marker afterwards is
`updateMarker previous universe.start`, which is `min(previous, start)`
(or `start` if unset) — with no condition on the universe's upper bound,
which may lie in the past; and any request all of whose uncovered deltas
start at/after the current marker performs no fetch and (in the stream
variant) leaves the state untouched, being served from cache. -/
theorem C10_marker_min_and_cache_only (st : CacheState) (uni : DayRange) :
    ((getIssuesByActivityCalls st uni).1 ≠ [] →
      ((getIssuesByActivityCalls st uni).2).openEndedStart =
        updateMarker st.openEndedStart uni.start) ∧
    ((getIssuesByActivityStreamCalls st uni).1 ≠ [] →
      ((getIssuesByActivityStreamCalls st uni).2).openEndedStart =
        updateMarker st.openEndedStart uni.start) ∧
    (∀ m, st.openEndedStart = some m →
      updateMarker st.openEndedStart uni.start = some (min m uni.start)) ∧
    (st.openEndedStart = none →
      updateMarker st.openEndedStart uni.start = some uni.start) ∧
    (∀ m, st.openEndedStart = some m →
      (∀ d ∈ subtractRanges uni st.fetchedRanges, m ≤ d.start) →
      (getIssuesByActivityCalls st uni).1 = [] ∧
      (getIssuesByActivityStreamCalls st uni).1 = [] ∧
      (getIssuesByActivityStreamCalls st uni).2 = st) := by
  refine ⟨?_, ?_, ?_, ?_, ?_⟩
  · intro hne
    unfold getIssuesByActivityCalls at hne ⊢
    by_cases hemp : (subtractRanges uni st.fetchedRanges).isEmpty
    · rw [if_pos hemp] at hne; exact absurd rfl hne
    · rw [if_neg hemp]
  · intro hne
    unfold getIssuesByActivityStreamCalls at hne ⊢
    by_cases hemp : (subtractRanges uni st.fetchedRanges).isEmpty
    · rw [if_pos hemp] at hne; exact absurd rfl hne
    · rw [if_neg hemp] at hne ⊢
      dsimp only at hne ⊢
      by_cases hres : (deltaLoop st.openEndedStart st.fetchedRanges
          (subtractRanges uni st.fetchedRanges)).1.isEmpty
      · rw [if_pos hres] at hne; exact absurd rfl hne
      · rw [if_neg hres]
  · intro m hm
    unfold updateMarker
    rw [hm]
    dsimp only
    by_cases h : uni.start < m
    · rw [if_pos h]; congr 1; omega
    · rw [if_neg h]; congr 1; omega
  · intro hm
    unfold updateMarker
    rw [hm]
  · intro m hm hall
    have hskip : ∀ d ∈ subtractRanges uni st.fetchedRanges,
        shouldSkipDelta st.openEndedStart d = true := by
      intro d hd
      rw [hm]
      unfold shouldSkipDelta
      simp only [decide_eq_true_eq]
      exact hall d hd
    have hcalls : (deltaLoop st.openEndedStart st.fetchedRanges
        (subtractRanges uni st.fetchedRanges)).1 = [] :=
      deltaLoop_calls_nil _ _ _ hskip
    refine ⟨?_, ?_, ?_⟩
    · unfold getIssuesByActivityCalls
      by_cases hemp : (subtractRanges uni st.fetchedRanges).isEmpty
      · rw [if_pos hemp]
      · rw [if_neg hemp]
        exact hcalls
    · unfold getIssuesByActivityStreamCalls
      by_cases hemp : (subtractRanges uni st.fetchedRanges).isEmpty
      · rw [if_pos hemp]
      · rw [if_neg hemp]
        dsimp only
        rw [if_pos (by rw [hcalls]; rfl)]
    · unfold getIssuesByActivityStreamCalls
      by_cases hemp : (subtractRanges uni st.fetchedRanges).isEmpty
      · rw [if_pos hemp]
      · rw [if_neg hemp]
        dsimp only
        rw [if_pos (by rw [hcalls]; rfl)]

/-- Witness for C10: marker at 10 with cached `[10,20]`; the request
`[12,25]` has all uncovered deltas starting at/after the marker, so no
fetch happens and the stream state is untouched. -/
theorem C10_marker_min_and_cache_only_witness :
    (getIssuesByActivityCalls ⟨[⟨10, 20⟩], some 10⟩ ⟨12, 25⟩).1 = [] ∧
    (getIssuesByActivityStreamCalls ⟨[⟨10, 20⟩], some 10⟩ ⟨12, 25⟩).2 =
      ⟨[⟨10, 20⟩], some 10⟩ :=
  ⟨((C10_marker_min_and_cache_only ⟨[⟨10, 20⟩], some 10⟩ ⟨12, 25⟩).2.2.2.2
      10 rfl (by decide)).1,
   ((C10_marker_min_and_cache_only ⟨[⟨10, 20⟩], some 10⟩ ⟨12, 25⟩).2.2.2.2
      10 rfl (by decide)).2.2⟩

/-! ## Lemmas about the adaptive queue processor -/

deriving instance DecidableEq for Except

/-- If the classification loop reaches a non-throttle failure — everything
before it in batch order being a success or a throttle — it rethrows that
failure's original error (lines 361–372). -/
theorem classify_first_fatal {α : Type} (pre : List (Nat × Except String α))
    (i : Nat) (e : String) (post : List (Nat × Except String α))
    (hpre : ∀ p ∈ pre, ∀ e', p.2 = Except.error e' → isThrottleError e' = true)
    (he : isThrottleError e = false) :
    classify (pre ++ (i, Except.error e) :: post) = .error e := by
  induction pre with
  | nil => simp [classify, he]
  | cons p pre ih =>
    have hpre' : ∀ p ∈ pre, ∀ e', p.2 = Except.error e' →
        isThrottleError e' = true :=
      fun q hq => hpre q (List.mem_cons_of_mem _ hq)
    rcases p with ⟨j, r⟩
    cases r with
    | ok v =>
      simp only [List.cons_append, classify, List.append_eq]
      rw [ih hpre']
      rfl
    | error e' =>
      have ht : isThrottleError e' = true :=
        hpre (j, Except.error e') (List.mem_cons_self _ _) e' rfl
      simp only [List.cons_append, classify, ht, if_true, List.append_eq]
      rw [ih hpre']
      rfl

/-- C8: a non-throttle failure in a wave makes the whole processor reject
with exactly that original error — the caller sees only the exception, no
(partial) results value is returned.  The hypothesis exhibits the first
fatal outcome of the wave: everything before it succeeded or throttled. -/
theorem C8_fatal_error_aborts_run {α : Type}
    (tasks : Nat → Nat → Except String α) (wave : Nat) (st : QueueState α)
    (pre post : List (Nat × Except String α)) (i : Nat) (e : String)
    (houtcomes : outcomesOf tasks wave st = pre ++ (i, Except.error e) :: post)
    (hpre : ∀ p ∈ pre, ∀ e', p.2 = Except.error e' → isThrottleError e' = true)
    (he : isThrottleError e = false) :
    waveStep tasks wave st = .error e ∧
    ∀ fuel, runQueue tasks (fuel + 1) wave st = some (.error e) := by
  have hws : waveStep tasks wave st = .error e := by
    unfold waveStep
    rw [houtcomes, classify_first_fatal pre i e post hpre he]
  refine ⟨hws, fun fuel => ?_⟩
  have hpend : ¬ st.pending.isEmpty = true := by
    intro hp
    have hnil : st.pending = [] := by
      cases hl : st.pending with
      | nil => rfl
      | cons a l => rw [hl] at hp; simp at hp
    unfold outcomesOf batchOf at houtcomes
    rw [hnil] at houtcomes
    simp at houtcomes
  unfold runQueue
  rw [if_neg hpend, hws]

/-- Task family of the C8 witness: task 1 always rejects with a
non-throttle error, the others succeed. -/
def c8Tasks : Nat → Nat → Except String Nat := fun i _ =>
  if i = 1 then .error "HTTP 500 boom" else .ok i

/-- Witness for C8: three tasks at concurrency 2; task 1 fails with
"HTTP 500 boom" (not a throttle) in the first wave, task 0 before it
succeeds — the run rejects with exactly that error. -/
theorem C8_fatal_error_aborts_run_witness :
    waveStep c8Tasks 0 (initQueue Nat 3 2) = .error "HTTP 500 boom" ∧
    runQueue c8Tasks 3 0 (initQueue Nat 3 2) =
      some (.error "HTTP 500 boom") := by
  have h := C8_fatal_error_aborts_run c8Tasks 0 (initQueue Nat 3 2)
    [(0, Except.ok 0)] [] 1 "HTTP 500 boom" (by decide)
    (by
      intro p hp e' he'
      rcases List.mem_singleton.mp hp with rfl
      simp at he')
    (by decide)
  exact ⟨h.1, h.2 2⟩

/-- Task family of the C6 scenario: every task throttles (HTTP 429) in
waves 0 and 1 and succeeds from wave 2 on. -/
def c6Tasks : Nat → Nat → Except String Nat := fun i w =>
  if w ≤ 1 then .error "HTTP 429 rate limited" else .ok i

/-- C6: with start concurrency 100 and backoff ratio 0.75, a first
throttled wave reduces and persists concurrency to `floor(100·0.75) = 75`
and a second consecutive throttled wave to `floor(75·0.75) = 56`; every
wave either leaves concurrency and the persistence log untouched or
appends exactly its new concurrency to the log within that same wave; and
when the ratio yields no change the step still decreases by one, clamped
at 1. -/
theorem C6_throttle_backoff_decrease :
    (processQueueWithAdaptiveConcurrency c6Tasks 3 100 5 =
      some (.ok ⟨[some 0, some 1, some 2], [], 56, true, [75, 56],
                 [0, 1, 2]⟩)) ∧
    backoffNext 100 = 75 ∧ backoffNext 75 = 56 ∧
    (∀ (α : Type) (tasks : Nat → Nat → Except String α) (wave : Nat)
        (st st' : QueueState α), waveStep tasks wave st = .ok st' →
      (st'.persisted = st.persisted ∧ st'.concurrency = st.concurrency) ∨
      st'.persisted = st.persisted ++ [st'.concurrency]) ∧
    (∀ c : Nat, 1 ≤ c → 1 ≤ backoffNext c ∧ (2 ≤ c → backoffNext c < c) ∧
      (max 1 (c * 3 / 4) = c → backoffNext c = max 1 (c - 1))) := by
  refine ⟨by decide, by decide, by decide, ?_, ?_⟩
  · intro α tasks wave st st' h
    unfold waveStep at h
    rcases hcl : classify (outcomesOf tasks wave st) with e | sf
    · rw [hcl] at h; cases h
    · rw [hcl] at h
      dsimp only at h
      by_cases hemp : sf.2.isEmpty
      · rw [if_pos hemp] at h
        cases h
        exact Or.inl ⟨rfl, rfl⟩
      · rw [if_neg hemp] at h
        cases h
        exact Or.inr rfl
  · intro c hc
    simp only [backoffNext]
    refine ⟨?_, ?_, ?_⟩
    · split <;> omega
    · intro h2
      have h34 : c * 3 / 4 < c := by omega
      split <;> omega
    · intro heq
      rw [if_pos heq]

/-- Witness for C6 instantiating the backoff-step clause at `c = 7`
(`floor(7·0.75) = 5`). -/
theorem C6_throttle_backoff_decrease_witness :
    1 ≤ backoffNext 7 ∧ (2 ≤ 7 → backoffNext 7 < 7) ∧
    (max 1 (7 * 3 / 4) = 7 → backoffNext 7 = max 1 (7 - 1)) :=
  C6_throttle_backoff_decrease.2.2.2.2 7 (by decide)

/-- The successes of a wave's outcome list, in batch order, with their
indices — what lines 363–365 write into `results`. -/
def succsOf {α : Type} (os : List (Nat × Except String α)) : List (Nat × α) :=
  os.filterMap (fun p => match p.2 with
    | .ok v => some (p.1, v)
    | .error _ => none)

/-- The throttled indices of a wave's outcome list, in batch order — what
lines 366–368 collect into `failed`. -/
def failsOf {α : Type} (os : List (Nat × Except String α)) : List Nat :=
  os.filterMap (fun p => match p.2 with
    | .error e => if isThrottleError e then some p.1 else none
    | .ok _ => none)

theorem succsOf_cons {α : Type} (j : Nat) (r : Except String α)
    (os : List (Nat × Except String α)) :
    succsOf ((j, r) :: os) =
      (match r with
       | .ok v => (j, v) :: succsOf os
       | .error _ => succsOf os) := by
  cases r <;> simp [succsOf, List.filterMap_cons]

theorem failsOf_cons {α : Type} (j : Nat) (r : Except String α)
    (os : List (Nat × Except String α)) :
    failsOf ((j, r) :: os) =
      (match r with
       | .error e => if isThrottleError e then j :: failsOf os else failsOf os
       | .ok _ => failsOf os) := by
  cases r with
  | ok v => simp [failsOf, List.filterMap_cons]
  | error e =>
    by_cases ht : isThrottleError e = true
    · simp [failsOf, List.filterMap_cons, ht]
    · simp [failsOf, List.filterMap_cons, ht]

theorem classify_eq_ok {α : Type} :
    ∀ (os : List (Nat × Except String α)) (sf : List (Nat × α) × List Nat),
      classify os = .ok sf → sf.1 = succsOf os ∧ sf.2 = failsOf os := by
  intro os
  induction os with
  | nil =>
    intro sf h
    cases h
    exact ⟨rfl, rfl⟩
  | cons p os ih =>
    intro sf h
    rcases p with ⟨j, r⟩
    cases r with
    | ok v =>
      simp only [classify] at h
      rcases hcl : classify os with e | sf'
      · rw [hcl] at h; simp [Except.map] at h
      · rw [hcl] at h
        simp only [Except.map] at h
        cases h
        obtain ⟨h1, h2⟩ := ih sf' hcl
        rw [succsOf_cons, failsOf_cons]
        exact ⟨by rw [h1], by rw [h2]⟩
    | error e =>
      simp only [classify] at h
      by_cases ht : isThrottleError e = true
      · rw [if_pos ht] at h
        rcases hcl : classify os with e' | sf'
        · rw [hcl] at h; simp [Except.map] at h
        · rw [hcl] at h
          simp only [Except.map] at h
          cases h
          obtain ⟨h1, h2⟩ := ih sf' hcl
          rw [succsOf_cons, failsOf_cons]
          refine ⟨by rw [h1], ?_⟩
          dsimp only
          rw [if_pos ht, h2]
      · rw [if_neg ht] at h
        cases h

theorem classify_ok_no_fatal {α : Type} :
    ∀ (os : List (Nat × Except String α)) (sf : List (Nat × α) × List Nat),
      classify os = .ok sf →
      ∀ p ∈ os, isOkB p.2 = true ∨ isThrottleFailB p.2 = true := by
  intro os
  induction os with
  | nil => intro sf _ p hp; cases hp
  | cons q os ih =>
    intro sf h p hp
    rcases q with ⟨j, r⟩
    cases r with
    | ok v =>
      rcases List.mem_cons.mp hp with rfl | hp'
      · left; rfl
      · simp only [classify] at h
        rcases hcl : classify os with e | sf'
        · rw [hcl] at h; simp [Except.map] at h
        · exact ih sf' hcl p hp'
    | error e =>
      simp only [classify] at h
      by_cases ht : isThrottleError e = true
      · rcases List.mem_cons.mp hp with rfl | hp'
        · right; simpa [isThrottleFailB] using ht
        · rw [if_pos ht] at h
          rcases hcl : classify os with e' | sf'
          · rw [hcl] at h; simp [Except.map] at h
          · exact ih sf' hcl p hp'
      · rw [if_neg ht] at h
        cases h

theorem succsOf_map_fst {α : Type} (tasks : Nat → Nat → Except String α)
    (wave : Nat) (batch : List Nat) :
    (succsOf (batch.map (fun i => (i, tasks i wave)))).map Prod.fst =
      batch.filter (fun i => isOkB (tasks i wave)) := by
  induction batch with
  | nil => rfl
  | cons i batch ih =>
    rw [List.map_cons, succsOf_cons, List.filter_cons]
    cases htask : tasks i wave with
    | ok v => simp [isOkB, ih]
    | error e => simp [isOkB, ih]

theorem failsOf_map {α : Type} (tasks : Nat → Nat → Except String α)
    (wave : Nat) (batch : List Nat) :
    failsOf (batch.map (fun i => (i, tasks i wave))) =
      batch.filter (fun i => isThrottleFailB (tasks i wave)) := by
  induction batch with
  | nil => rfl
  | cons i batch ih =>
    rw [List.map_cons, failsOf_cons, List.filter_cons]
    cases htask : tasks i wave with
    | ok v => simp [isThrottleFailB, ih]
    | error e =>
      by_cases ht : isThrottleError e = true
      · simp [isThrottleFailB, ht, ih]
      · simp [isThrottleFailB, ht, ih]

theorem mem_succsOf {α : Type} (tasks : Nat → Nat → Except String α)
    (wave : Nat) (batch : List Nat) (i : Nat) (v : α)
    (h : (i, v) ∈ succsOf (batch.map (fun j => (j, tasks j wave)))) :
    i ∈ batch ∧ tasks i wave = .ok v := by
  unfold succsOf at h
  rw [List.mem_filterMap] at h
  obtain ⟨p, hp, hfp⟩ := h
  rw [List.mem_map] at hp
  obtain ⟨j, hj, rfl⟩ := hp
  cases htask : tasks j wave with
  | ok w =>
    rw [htask] at hfp
    simp at hfp
    obtain ⟨rfl, rfl⟩ := hfp
    exact ⟨hj, htask⟩
  | error e =>
    rw [htask] at hfp
    cases hfp

theorem slotL_length_foldl_set {α : Type} (succs : List (Nat × α))
    (l : List (Option α)) :
    (succs.foldl (fun r iv => r.set iv.1 (some iv.2)) l).length = l.length := by
  induction succs generalizing l with
  | nil => rfl
  | cons p ps ih => rw [List.foldl_cons, ih, List.length_set]

theorem slotL_set_ne {α : Type} (l : List (Option α)) (i j : Nat) (v : α)
    (h : j ≠ i) : slotL (l.set j (some v)) i = slotL l i := by
  unfold slotL
  rw [List.getD_eq_getElem?_getD, List.getD_eq_getElem?_getD,
      List.getElem?_set_ne h]

theorem slotL_set_self {α : Type} (l : List (Option α)) (i : Nat) (v : α)
    (h : i < l.length) : slotL (l.set i (some v)) i = some v := by
  unfold slotL
  rw [List.getD_eq_getElem?_getD, List.getElem?_set_self h]
  rfl

theorem slot_foldl_set_not_mem {α : Type} (succs : List (Nat × α)) :
    ∀ (l : List (Option α)) (i : Nat), i ∉ succs.map Prod.fst →
    slotL (succs.foldl (fun r iv => r.set iv.1 (some iv.2)) l) i =
      slotL l i := by
  induction succs with
  | nil => intro l i _; rfl
  | cons p ps ih =>
    intro l i h
    simp only [List.map_cons, List.mem_cons] at h
    push_neg at h
    rw [List.foldl_cons, ih _ i h.2, slotL_set_ne _ _ _ _ (Ne.symm h.1)]

theorem slot_foldl_set_mem {α : Type} (succs : List (Nat × α)) :
    ∀ (l : List (Option α)) (i : Nat) (v : α),
    (succs.map Prod.fst).Nodup → (i, v) ∈ succs → i < l.length →
    slotL (succs.foldl (fun r iv => r.set iv.1 (some iv.2)) l) i = some v := by
  induction succs with
  | nil => intro l i v _ hmem _; cases hmem
  | cons p ps ih =>
    intro l i v hnd hmem hlen
    simp only [List.map_cons, List.nodup_cons] at hnd
    rcases List.mem_cons.mp hmem with heq | hmem'
    · cases heq
      rw [List.foldl_cons, slot_foldl_set_not_mem ps _ i hnd.1]
      exact slotL_set_self l i v hlen
    · rw [List.foldl_cons]
      exact ih (l.set p.1 (some p.2)) i v hnd.2 hmem'
        (by rw [List.length_set]; exact hlen)

theorem slotL_replicate {α : Type} (n i : Nat) :
    slotL (List.replicate n (none : Option α)) i = none := by
  unfold slotL
  rw [List.getD_eq_getElem?_getD, List.getElem?_replicate]
  split <;> rfl

/-- Run invariant of `processQueueWithAdaptiveConcurrency`: results slots
are index-aligned (`results[i]` is `none` exactly while `i` is pending, and
once filled holds a value its own factory produced), pending indices are
distinct and in range, and `succeeded` records each index exactly once per
filled slot (no task is run to success twice). -/
def QInv {α : Type} (n : Nat) (tasks : Nat → Nat → Except String α)
    (st : QueueState α) : Prop :=
  st.results.length = n ∧
  st.pending.Nodup ∧
  (∀ i ∈ st.pending, i < n) ∧
  (∀ i, i < n → (slotL st.results i = none ↔ i ∈ st.pending)) ∧
  (∀ i v, slotL st.results i = some v → ∃ t, tasks i t = Except.ok v) ∧
  (∀ i, st.succeeded.count i = if (slotL st.results i).isSome then 1 else 0)

theorem initQueue_inv {α : Type} (n c : Nat)
    (tasks : Nat → Nat → Except String α) :
    QInv n tasks (initQueue α n c) := by
  unfold QInv initQueue
  refine ⟨List.length_replicate n none, List.nodup_range n,
    fun i hi => List.mem_range.mp hi, fun i hi => ?_, fun i v h => ?_,
    fun i => ?_⟩
  · simp [slotL_replicate, List.mem_range, hi]
  · rw [slotL_replicate] at h; cases h
  · simp [slotL_replicate]

theorem waveStep_inv {α : Type} {n : Nat}
    {tasks : Nat → Nat → Except String α} {wave : Nat}
    {st st' : QueueState α} (hinv : QInv n tasks st)
    (h : waveStep tasks wave st = .ok st') : QInv n tasks st' := by
  obtain ⟨hlen, hnd, hpn, hslots, hval, hcount⟩ := hinv
  unfold waveStep at h
  rcases hcl : classify (outcomesOf tasks wave st) with e | sf
  · rw [hcl] at h; cases h
  rw [hcl] at h
  dsimp only at h
  obtain ⟨hs1, hs2⟩ := classify_eq_ok _ sf hcl
  have hnofatal := classify_ok_no_fatal _ sf hcl
  have hsplit : batchOf st ++ restOf st = st.pending :=
    List.take_append_drop _ _
  have hnd2 : (batchOf st ++ restOf st).Nodup := by rw [hsplit]; exact hnd
  rw [List.nodup_append] at hnd2
  obtain ⟨hndb, hndr, hdisj⟩ := hnd2
  have hbsub : ∀ i ∈ batchOf st, i ∈ st.pending := by
    intro i hi; rw [← hsplit]; exact List.mem_append.mpr (Or.inl hi)
  have hrsub : ∀ i ∈ restOf st, i ∈ st.pending := by
    intro i hi; rw [← hsplit]; exact List.mem_append.mpr (Or.inr hi)
  have hsf1 : sf.1.map Prod.fst =
      (batchOf st).filter (fun i => isOkB (tasks i wave)) := by
    rw [hs1]; exact succsOf_map_fst tasks wave (batchOf st)
  have hsf2 : sf.2 = throttledOf tasks wave st := by
    rw [hs2]; exact failsOf_map tasks wave (batchOf st)
  have hFnd : ((batchOf st).filter (fun i => isOkB (tasks i wave))).Nodup :=
    hndb.filter _
  have hTnd : (throttledOf tasks wave st).Nodup := hndb.filter _
  have hFsub : ∀ i ∈ (batchOf st).filter (fun i => isOkB (tasks i wave)),
      i ∈ batchOf st := fun i hi => (List.filter_sublist _).subset hi
  have hTsub : ∀ i ∈ throttledOf tasks wave st, i ∈ batchOf st :=
    fun i hi => (List.filter_sublist _).subset hi
  have hFT : ∀ i, i ∈ (batchOf st).filter (fun i => isOkB (tasks i wave)) →
      i ∈ throttledOf tasks wave st → False := by
    intro i hiF hiT
    have h1 := List.of_mem_filter hiF
    have h2 := List.of_mem_filter hiT
    cases htask : tasks i wave <;> rw [htask] at h1 h2 <;>
      simp [isOkB, isThrottleFailB] at h1 h2
  have hclassF : ∀ i ∈ batchOf st,
      i ∈ (batchOf st).filter (fun i => isOkB (tasks i wave)) ∨
      i ∈ throttledOf tasks wave st := by
    intro i hi
    rcases hnofatal (i, tasks i wave)
        (by unfold outcomesOf; exact List.mem_map_of_mem _ hi) with hok | hth
    · left; exact List.mem_filter_of_mem hi hok
    · right; exact List.mem_filter_of_mem hi hth
  have hslot_not : ∀ i,
      i ∉ (batchOf st).filter (fun i => isOkB (tasks i wave)) →
      slotL (sf.1.foldl (fun r iv => r.set iv.1 (some iv.2)) st.results) i =
        slotL st.results i := by
    intro i hi
    exact slot_foldl_set_not_mem sf.1 st.results i (by rw [hsf1]; exact hi)
  have hslot_mem : ∀ i,
      i ∈ (batchOf st).filter (fun i => isOkB (tasks i wave)) →
      ∃ v, slotL (sf.1.foldl (fun r iv => r.set iv.1 (some iv.2))
          st.results) i = some v ∧ tasks i wave = .ok v := by
    intro i hiF
    have hmf : i ∈ sf.1.map Prod.fst := by rw [hsf1]; exact hiF
    rw [List.mem_map] at hmf
    obtain ⟨⟨i', v⟩, hp, hfst⟩ := hmf
    dsimp only at hfst
    have htask : tasks i wave = .ok v := by
      have hmm : (i', v) ∈ succsOf (outcomesOf tasks wave st) := by
        rw [← hs1]; exact hp
      have hti := (mem_succsOf tasks wave (batchOf st) i' v hmm).2
      rw [hfst] at hti
      exact hti
    refine ⟨v, ?_, htask⟩
    have hp' : (i, v) ∈ sf.1 := by rw [← hfst]; exact hp
    refine slot_foldl_set_mem sf.1 st.results i v (by rw [hsf1]; exact hFnd)
      hp' ?_
    rw [hlen]
    exact hpn i (hbsub i (hFsub i hiF))
  have hmain : ∀ i, i < n →
      (slotL (sf.1.foldl (fun r iv => r.set iv.1 (some iv.2)) st.results) i
        = none ↔ (i ∈ throttledOf tasks wave st ∨ i ∈ restOf st)) := by
    intro i hi
    by_cases hiB : i ∈ batchOf st
    · rcases hclassF i hiB with hiF | hiT
      · obtain ⟨v, hsv, -⟩ := hslot_mem i hiF
        rw [hsv]
        constructor
        · intro hx; cases hx
        · rintro (hiT | hir)
          · exact (hFT i hiF hiT).elim
          · exact (hdisj hiB hir).elim
      · have hinotF : i ∉ (batchOf st).filter (fun i => isOkB (tasks i wave)) :=
          fun hiF => hFT i hiF hiT
        rw [hslot_not i hinotF, (hslots i hi).mpr (hbsub i hiB)]
        exact ⟨fun _ => Or.inl hiT, fun _ => rfl⟩
    · have hinotF : i ∉ (batchOf st).filter (fun i => isOkB (tasks i wave)) :=
        fun hiF => hiB (hFsub i hiF)
      rw [hslot_not i hinotF]
      by_cases hir : i ∈ restOf st
      · rw [(hslots i hi).mpr (hrsub i hir)]
        exact ⟨fun _ => Or.inr hir, fun _ => rfl⟩
      · have hip : i ∉ st.pending := by
          rw [← hsplit]
          intro hc
          rcases List.mem_append.mp hc with hc | hc
          · exact hiB hc
          · exact hir hc
        constructor
        · intro hc; exact absurd ((hslots i hi).mp hc) hip
        · rintro (hiT | hir')
          · exact absurd (hTsub i hiT) hiB
          · exact absurd hir' hir
  have hval' : ∀ i v,
      slotL (sf.1.foldl (fun r iv => r.set iv.1 (some iv.2)) st.results) i
        = some v → ∃ t, tasks i t = Except.ok v := by
    intro i v hsv
    by_cases hiF : i ∈ (batchOf st).filter (fun i => isOkB (tasks i wave))
    · obtain ⟨v0, hsv0, htask⟩ := hslot_mem i hiF
      rw [hsv0] at hsv
      cases hsv
      exact ⟨wave, htask⟩
    · rw [hslot_not i hiF] at hsv
      exact hval i v hsv
  have hcount' : ∀ i,
      (st.succeeded ++ sf.1.map Prod.fst).count i =
        if (slotL (sf.1.foldl (fun r iv => r.set iv.1 (some iv.2))
            st.results) i).isSome then 1 else 0 := by
    intro i
    rw [List.count_append, hcount i, hsf1]
    by_cases hiF : i ∈ (batchOf st).filter (fun i => isOkB (tasks i wave))
    · obtain ⟨v, hsv, -⟩ := hslot_mem i hiF
      rw [hsv]
      have hc1 : ((batchOf st).filter
          (fun i => isOkB (tasks i wave))).count i = 1 :=
        List.count_eq_one_of_mem hFnd hiF
      have hi : i < n := hpn i (hbsub i (hFsub i hiF))
      have hslotold : slotL st.results i = none :=
        (hslots i hi).mpr (hbsub i (hFsub i hiF))
      rw [hslotold, hc1]
      simp
    · have hc0 : ((batchOf st).filter
          (fun i => isOkB (tasks i wave))).count i = 0 :=
        List.count_eq_zero_of_not_mem hiF
      rw [hslot_not i hiF, hc0]
      omega
  have hlen' :
      (sf.1.foldl (fun r iv => r.set iv.1 (some iv.2)) st.results).length
        = n := by
    rw [slotL_length_foldl_set, hlen]
  by_cases hemp : sf.2.isEmpty = true
  · rw [if_pos hemp] at h
    cases h
    have hTnil : throttledOf tasks wave st = [] := by
      rw [← hsf2]; exact List.isEmpty_iff.mp hemp
    refine ⟨hlen', hndr, fun i hi => hpn i (hrsub i hi), fun i hi => ?_,
      hval', hcount'⟩
    rw [hmain i hi, hTnil]
    simp
  · rw [if_neg hemp] at h
    cases h
    refine ⟨hlen', ?_, ?_, ?_, hval', hcount'⟩
    · rw [hsf2]
      exact List.nodup_append.mpr ⟨hTnd, hndr,
        fun i hiT hir => hdisj (hTsub i hiT) hir⟩
    · intro i hi
      rw [hsf2] at hi
      rcases List.mem_append.mp hi with hi | hi
      · exact hpn i (hbsub i (hTsub i hi))
      · exact hpn i (hrsub i hi)
    · intro i hi
      rw [hmain i hi, hsf2]
      exact (List.mem_append).symm

theorem runQueue_inv {α : Type} {n : Nat}
    {tasks : Nat → Nat → Except String α} :
    ∀ (fuel wave : Nat) (st st' : QueueState α), QInv n tasks st →
    runQueue tasks fuel wave st = some (.ok st') →
    QInv n tasks st' ∧ st'.pending = [] := by
  intro fuel
  induction fuel with
  | zero =>
    intro wave st st' hinv h
    unfold runQueue at h
    by_cases hp : st.pending.isEmpty = true
    · rw [if_pos hp] at h
      cases h
      exact ⟨hinv, List.isEmpty_iff.mp hp⟩
    · rw [if_neg hp] at h
      cases h
  | succ fuel ih =>
    intro wave st st' hinv h
    unfold runQueue at h
    by_cases hp : st.pending.isEmpty = true
    · rw [if_pos hp] at h
      cases h
      exact ⟨hinv, List.isEmpty_iff.mp hp⟩
    · rw [if_neg hp] at h
      rcases hws : waveStep tasks wave st with e | st2
      · rw [hws] at h; cases h
      · rw [hws] at h
        exact ih (wave + 1) st2 st' (waveStep_inv hinv hws) h

/-- C7: whenever `processQueueWithAdaptiveConcurrency` completes without a
fatal error, its results array has length `n` with slot `i` holding exactly
a value produced by task factory `i` (index-aligned with submission order),
every task runs to success exactly once (none lost, none duplicated), and
every wave re-inserts its throttled indices at the front of `pending`,
ahead of the not-yet-started work. -/
theorem C7_results_index_aligned {α : Type}
    (tasks : Nat → Nat → Except String α) (n c fuel : Nat)
    (st' : QueueState α)
    (h : processQueueWithAdaptiveConcurrency tasks n c fuel =
      some (.ok st')) :
    st'.results.length = n ∧
    (∀ i, i < n → ∃ v t, slotL st'.results i = some v ∧
      tasks i t = Except.ok v) ∧
    (∀ i, i < n → st'.succeeded.count i = 1) ∧
    (∀ i, st'.succeeded.count i ≤ 1) ∧
    (∀ (st0 st1 : QueueState α) (wave : Nat),
      waveStep tasks wave st0 = .ok st1 →
      st1.pending = throttledOf tasks wave st0 ++ restOf st0) := by
  obtain ⟨hinv, hpend⟩ :=
    runQueue_inv fuel 0 _ st' (initQueue_inv n c tasks) h
  obtain ⟨hlen, hnd, hpn, hslots, hval, hcount⟩ := hinv
  have hfilled : ∀ i, i < n → slotL st'.results i ≠ none := by
    intro i hi hc
    have := (hslots i hi).mp hc
    rw [hpend] at this
    cases this
  refine ⟨hlen, ?_, ?_, ?_, ?_⟩
  · intro i hi
    rcases hsv : slotL st'.results i with - | v
    · exact absurd hsv (hfilled i hi)
    · obtain ⟨t, ht⟩ := hval i v hsv
      exact ⟨v, t, rfl, ht⟩
  · intro i hi
    rw [hcount i]
    rcases hsv : slotL st'.results i with - | v
    · exact absurd hsv (hfilled i hi)
    · simp
  · intro i
    rw [hcount i]
    split <;> omega
  · intro st0 st1 wave hws
    unfold waveStep at hws
    rcases hcl : classify (outcomesOf tasks wave st0) with e | sf
    · rw [hcl] at hws; cases hws
    · rw [hcl] at hws
      dsimp only at hws
      obtain ⟨-, hs2⟩ := classify_eq_ok _ sf hcl
      have hsf2 : sf.2 = throttledOf tasks wave st0 := by
        rw [hs2]; exact failsOf_map tasks wave (batchOf st0)
      by_cases hemp : sf.2.isEmpty = true
      · rw [if_pos hemp] at hws
        cases hws
        have hTnil : throttledOf tasks wave st0 = [] := by
          rw [← hsf2]; exact List.isEmpty_iff.mp hemp
        dsimp only
        rw [hTnil, List.nil_append]
      · rw [if_neg hemp] at hws
        cases hws
        dsimp only
        rw [hsf2]

/-- Task family of the C7 witness: task 1 throttles in wave 0 and succeeds
on retry; the others succeed immediately; task `i` produces `i * 10`. -/
def c7Tasks : Nat → Nat → Except String Nat := fun i w =>
  if i = 1 && w = 0 then .error "HTTP 429 too many requests" else .ok (i * 10)

/-- Final state of the C7 witness run (three tasks, start concurrency 2). -/
def c7FinalState : QueueState Nat :=
  ⟨[some 0, some 10, some 20], [], 1, true, [1], [0, 1, 2]⟩

/-- Witness for C7: the concrete three-task run with one throttle completes
with every slot holding its own factory's value and every index succeeding
exactly once. -/
theorem C7_results_index_aligned_witness :
    (∀ i, i < 3 → ∃ v t, slotL c7FinalState.results i = some v ∧
      c7Tasks i t = Except.ok v) ∧
    (∀ i, i < 3 → c7FinalState.succeeded.count i = 1) :=
  ⟨(C7_results_index_aligned c7Tasks 3 2 4 c7FinalState (by decide)).2.1,
   (C7_results_index_aligned c7Tasks 3 2 4 c7FinalState (by decide)).2.2.1⟩

/-! ## Lemmas about the streaming-progress model -/

theorem discoverStep_fields (etaInitial : ℚ) (pages : Nat)
    (ps : ProgressState) :
    (discoverStep etaInitial pages ps).processedBatches =
      ps.processedBatches ∧
    (discoverStep etaInitial pages ps).totalBatches =
      some (ps.totalBatches.getD 0 + pages) ∧
    (discoverStep etaInitial pages ps).phase1Done = ps.phase1Done ∧
    (discoverStep etaInitial pages ps).avgSecondsPerBatch =
      ps.avgSecondsPerBatch := by
  unfold discoverStep
  dsimp only
  split <;> exact ⟨rfl, rfl, rfl, rfl⟩

theorem processBatchStep_fields (etaInitial : ℚ) (now : Nat)
    (ps : ProgressState) (hp : ps.phase1Done = false) :
    (processBatchStep etaInitial now ps).processedBatches =
      ps.processedBatches + 1 ∧
    (processBatchStep etaInitial now ps).totalBatches = ps.totalBatches ∧
    (processBatchStep etaInitial now ps).phase1Done = false ∧
    (processBatchStep etaInitial now ps).avgSecondsPerBatch =
      ps.avgSecondsPerBatch := by
  unfold processBatchStep
  rcases htb : ps.totalBatches with - | tb
  · exact ⟨rfl, rfl, hp, rfl⟩
  · dsimp only
    by_cases h0 : 0 < tb
    · rw [if_pos h0, hp]
      exact ⟨rfl, rfl, rfl, rfl⟩
    · rw [if_neg h0]
      exact ⟨rfl, rfl, hp, rfl⟩

theorem streamLoop_facts (etaInitial : ℚ) :
    ∀ (events : List StreamEvent) (ps : ProgressState),
      ps.phase1Done = false →
      ((events.foldl (streamStep etaInitial) ps).processedBatches =
          ps.processedBatches + countBatchDone events) ∧
      ((events.foldl (streamStep etaInitial) ps).totalBatches =
          (if hasDiscover events then
            some (ps.totalBatches.getD 0 + sumPages events)
           else ps.totalBatches)) ∧
      (events.foldl (streamStep etaInitial) ps).phase1Done = false ∧
      (events.foldl (streamStep etaInitial) ps).avgSecondsPerBatch =
        ps.avgSecondsPerBatch := by
  intro events
  induction events with
  | nil =>
    intro ps hp
    exact ⟨rfl, by simp [hasDiscover], hp, rfl⟩
  | cons e es ih =>
    intro ps hp
    rw [List.foldl_cons]
    cases e with
    | discover p =>
      rw [show streamStep etaInitial ps (StreamEvent.discover p) =
            discoverStep etaInitial p ps from rfl]
      obtain ⟨d1, d2, d3, d4⟩ := discoverStep_fields etaInitial p ps
      obtain ⟨h1, h2, h3, h4⟩ := ih (discoverStep etaInitial p ps)
        (by rw [d3]; exact hp)
      refine ⟨?_, ?_, h3, by rw [h4, d4]⟩
      · rw [h1, d1]
        rw [show countBatchDone (StreamEvent.discover p :: es) =
            countBatchDone es from rfl]
      · rw [h2, d2]
        rw [show sumPages (StreamEvent.discover p :: es) =
            p + sumPages es from rfl]
        rw [if_pos (show hasDiscover (StreamEvent.discover p :: es) =
            true from rfl)]
        by_cases hd : hasDiscover es = true
        · rw [if_pos hd]
          congr 1
          simp
          omega
        · rw [if_neg hd]
          have hs0 : sumPages es = 0 := by
            clear * - hd
            induction es with
            | nil => rfl
            | cons e es ih =>
              cases e with
              | discover q => simp [hasDiscover] at hd
              | batchDone t =>
                rw [show hasDiscover (StreamEvent.batchDone t :: es) =
                    hasDiscover es from rfl] at hd
                rw [show sumPages (StreamEvent.batchDone t :: es) =
                    sumPages es from rfl]
                exact ih hd
          rw [hs0]
          simp
    | batchDone now =>
      rw [show streamStep etaInitial ps (StreamEvent.batchDone now) =
            processBatchStep etaInitial now ps from rfl]
      obtain ⟨d1, d2, d3, d4⟩ := processBatchStep_fields etaInitial now ps hp
      obtain ⟨h1, h2, h3, h4⟩ := ih (processBatchStep etaInitial now ps) d3
      refine ⟨?_, ?_, h3, by rw [h4, d4]⟩
      · rw [h1, d1]
        rw [show countBatchDone (StreamEvent.batchDone now :: es) =
            1 + countBatchDone es from rfl]
        omega
      · rw [h2, d2]
        rw [show hasDiscover (StreamEvent.batchDone now :: es) =
            hasDiscover es from rfl]
        rw [show sumPages (StreamEvent.batchDone now :: es) =
            sumPages es from rfl]

theorem sumPages_eq_zero_of_not_discover :
    ∀ events : List StreamEvent, hasDiscover events = false →
      sumPages events = 0 := by
  intro events
  induction events with
  | nil => intro _; rfl
  | cons e es ih =>
    intro hd
    cases e with
    | discover q => simp [hasDiscover] at hd
    | batchDone t =>
      rw [show hasDiscover (StreamEvent.batchDone t :: es) =
          hasDiscover es from rfl] at hd
      rw [show sumPages (StreamEvent.batchDone t :: es) =
          sumPages es from rfl]
      exact ih hd

/-- C9: in any stream run that discovers `N > 0` batches and completes all
of them, the final `ProgressSnapshot` emitted to `onProgress` has
`remainingBatches = 0` and `etaSeconds` exactly `0` (not `null`, not a
stale positive value). -/
theorem C9_eta_terminal_zero (etaInitial : ℚ) (events : List StreamEvent)
    (nowEnd : Nat) (hN : 0 < sumPages events)
    (hAll : countBatchDone events = sumPages events) :
    (streamProgressRun etaInitial events nowEnd).snapshots.getLast? =
      some ⟨sumPages events, sumPages events, 0, some 0⟩ := by
  obtain ⟨h1, h2, h3, h4⟩ := streamLoop_facts etaInitial events initProgress rfl
  have hd : hasDiscover events = true := by
    cases hh : hasDiscover events
    · have := sumPages_eq_zero_of_not_discover events hh
      omega
    · rfl
  have hproc :
      (List.foldl (streamStep etaInitial) initProgress events).processedBatches
        = sumPages events := by
    rw [h1, hAll]
    simp [initProgress]
  have htot :
      (List.foldl (streamStep etaInitial) initProgress events).totalBatches
        = some (sumPages events) := by
    rw [h2, if_pos hd]
    simp [initProgress]
  unfold streamProgressRun streamFinalize streamLoop
  dsimp only
  rw [htot]
  dsimp only
  rw [if_pos hN, hproc, Nat.sub_self, if_pos rfl]
  exact List.getLast?_concat _

/-- Witness for C9: one delta discovering 2 batches, both completed — the
final snapshot is `{processed 2, total 2, remaining 0, eta 0}`. -/
theorem C9_eta_terminal_zero_witness :
    (streamProgressRun 10 [StreamEvent.discover 2, StreamEvent.batchDone 5,
        StreamEvent.batchDone 9] 12).snapshots.getLast? =
      some ⟨2, 2, 0, some 0⟩ :=
  C9_eta_terminal_zero 10
    [StreamEvent.discover 2, StreamEvent.batchDone 5, StreamEvent.batchDone 9]
    12 (by decide) (by decide)

set_option maxRecDepth 4000 in
/-- C5 counterexample: with 500 keys, target concurrency 100 and no
explicit batch size, `fetchIssuesDetailedByKeys` computes batch SIZE
`max(ceil(500/100), 1) = 5` keys per batch and therefore 100 batches — not
"batches of 100 keys each, yielding 5 batches" as the claim states. -/
theorem C5_counterexample_batch_sizing :
    detailedBatchSize 500 100 none = 5 ∧
    detailedBatchSize 500 100 none ≠ 100 ∧
    (detailedBatches (List.range 500) 100 none).length = 100 ∧
    (detailedBatches (List.range 500) 100 none).length ≠ 5 := by decide

set_option maxRecDepth 4000 in
/-- C5 (amended): with `totalKeys = 500`, `targetConcurrency = 100` and no
explicit batch size the keys are split into batches of 5 keys each,
yielding 100 batches (the batch COUNT, not the batch size, matches the
desired parallelism); with `totalKeys = 5` and `targetConcurrency = 10`
the batch size clamps to 1, yielding 5 batches of one key each. -/
theorem C5_amended_batch_sizing :
    detailedBatchSize 500 100 none = 5 ∧
    (detailedBatches (List.range 500) 100 none).length = 100 ∧
    ((detailedBatches (List.range 500) 100 none).all
      fun b => b.length = 5) = true ∧
    detailedBatchSize 5 10 none = 1 ∧
    (detailedBatches (List.range 5) 10 none).length = 5 ∧
    ((detailedBatches (List.range 5) 10 none).all
      fun b => b.length = 1) = true := by decide

end Jira
